import Mathlib

/-!
Shallow embedding of the incremental Earley parser in
`src/controllers/llguidance_ctrl/src/earley/parser.rs`.

The grammar (`CGrammar`) and lexer are external collaborators of this file's
source (their implementations live outside the provided sources); they are
modelled from the spec's interface contracts (spec section 6) as records of
functions.  Everything in the `Parser` itself is translated directly from
`parser.rs`.  Machine integers (`u64`, `usize`) are modelled as `Nat` with
explicit wrap-around where the source can overflow.  Logging macros
(`trace!` / `debug!`) have no observable effect and are dropped.  `assert!`
calls abort the Rust process; the model is total, and theorems carry the
hypotheses that make the asserted conditions hold where this matters.
-/

namespace Earley

/-- usize::MAX on a 64-bit target. -/
def USIZE_MAX : Nat := 2 ^ 64 - 1

/-- MAX_ROW from parser.rs line 29. -/
def MAX_ROW : Nat := 100

/-- Modelled from the spec: `LexemeIdx::SKIP` is a distinguished lexeme index
reserved for whitespace-like rules (spec section 3); we fix it at index 0. -/
def SKIP : Nat := 0

/-- Modelled from the spec: `CSymIdx::NULL`, the sentinel symbol meaning
"rule complete" when returned by `sym_idx_dot` (spec section 6); we fix it
at symbol index 0. -/
def NULLSYM : Nat := 0

/-- Earley item: a packed 64-bit handle, `rule.as_index()` in the low 32 bits
and the origin row in the high 32 bits (parser.rs `Item`, lines 47-140). -/
structure Item where
  data : Nat
  deriving DecidableEq

/-- Item::new (parser.rs line 121): `rule.as_index() as u64 | ((start as u64) << 32)`,
with the u64 wrap-around of the shift made explicit. -/
def Item.new (rule : Nat) (start : Nat) : Item :=
  ⟨(rule % 2 ^ 32 + start % 2 ^ 32 * 2 ^ 32) % 2 ^ 64⟩

/-- Item::rule_idx (parser.rs line 127): the low 32 bits. -/
def Item.ruleIdx (it : Item) : Nat := it.data % 2 ^ 32

/-- Item::start_pos (parser.rs line 131): the high 32 bits. -/
def Item.startPos (it : Item) : Nat := it.data / 2 ^ 32

/-- Item::advance_dot (parser.rs line 135): `data + 1` as a u64. -/
def Item.advanceDot (it : Item) : Item := ⟨(it.data + 1) % 2 ^ 64⟩

/-- Item::NULL (parser.rs line 119), used as the fill value where the source
leaves uninitialized capacity (`Scratch::ensure_items`). -/
def Item.NULL : Item := ⟨0⟩

/-- SimpleVob: a bit set over lexeme indices. -/
abbrev LexSet := List Bool

/-- Fresh all-false set of the given size (`alloc_lexeme_set`). -/
def LexSet.alloc (n : Nat) : LexSet := List.replicate n false

/-- Bit read. -/
def LexSet.get (v : LexSet) (i : Nat) : Bool := v.getD i false

/-- SimpleVob::set. -/
def LexSet.setIdx (v : LexSet) (i : Nat) (b : Bool) : LexSet := v.set i b

/-- SimpleVob::is_zero. -/
def LexSet.isZero (v : LexSet) : Bool := v.all (!·)

/-- SimpleVob::iter: the indices whose bit is set, in increasing order. -/
def LexSet.indices (v : LexSet) : List Nat :=
  (List.range v.length).filter (fun i => v.getD i false)

/-- Lexeme (lexerspec.rs, interface per spec section 3):
index, bytes, and length of the hidden suffix. -/
structure Lexeme where
  idx : Nat
  bytes : List Nat
  hiddenLen : Nat
  deriving DecidableEq

/-- Modelled from the spec: `visible_bytes = bytes[..len - hidden_len]`. -/
def Lexeme.visibleBytes (l : Lexeme) : List Nat :=
  l.bytes.take (l.bytes.length - l.hiddenLen)

/-- Modelled from the spec: `hidden_bytes = bytes[len - hidden_len..]`. -/
def Lexeme.hiddenBytes (l : Lexeme) : List Nat :=
  l.bytes.drop (l.bytes.length - l.hiddenLen)

/-- Modelled from the spec: the distinguished `bogus()` lexeme used for rows
that carry no scanned lexeme. -/
def Lexeme.bogus : Lexeme := ⟨SKIP, [], 0⟩

/-- Modelled from the spec: `Lexeme::just_idx` keeps only the index. -/
def Lexeme.justIdx (i : Nat) : Lexeme := ⟨i, [], 0⟩

/-- PreLexeme (lexer.rs, interface per spec section 6). -/
structure PreLexeme where
  idx : Nat
  byte : Option Nat
  byteNextRow : Bool
  hiddenLen : Nat
  deriving DecidableEq

/-- LexerResult (lexer.rs, interface per spec section 6). -/
inductive LexerResult where
  | state (next : Nat) (b : Nat)
  | lexeme (pl : PreLexeme)
  | error
  deriving DecidableEq

/-- LexerResult::is_error. -/
def LexerResult.isError : LexerResult → Bool
  | .error => true
  | _ => false

/-- Modelled from the spec: per-lexeme spec entry; only the prefix predicate
`has_forced_bytes` is consumed by parser.rs (line 1306). -/
structure LexemeSpec where
  forcedBytePred : List Nat → Bool

/-- Modelled from the spec: LexerSpec: the list of lexeme specs plus the
`greedy` flag (spec sections 4.4 and 6). -/
structure LexerSpecM where
  lexemes : List LexemeSpec
  greedy : Bool

/-- Modelled from the spec: the external DFA-based lexer interface
(spec section 6, "Lexer contract"); `StateID` is a `Nat`, and `is_dead`
identifies the distinguished dead state. -/
structure LexerM where
  advanceFn : Nat → Nat → LexerResult
  tryLexemeEnd : Nat → LexerResult
  forceLexemeEnd : Nat → LexerResult
  startState : LexSet → Option Nat → Nat
  aDeadState : Nat
  isDead : Nat → Bool
  allowsEos : Nat → Bool
  possibleLexemes : Nat → LexSet
  possibleHiddenLen : Nat → Nat
  limitStateTo : Nat → LexSet → Nat
  checkSingleByteLexeme : Nat → Nat → Option PreLexeme

/-- Modelled from the spec: symbol properties from `sym_data(...).props`
(spec section 6, "Grammar contract"). -/
structure SymProps where
  maxTokens : Nat
  captureName : Option String
  stopCaptureName : Option String
  hiddenFlag : Bool
  modelVariable : Option Nat
  deriving DecidableEq

/-- Modelled from the spec: `CSymbol` as consumed by parser.rs: nullability,
terminal flag, production rules, optional lexeme index, optional nested
grammar, and properties. -/
structure CSymbol where
  isNullable : Bool
  isTerminal : Bool
  rules : List Nat
  lexeme : Option Nat
  genGrammar : Option Nat
  props : SymProps
  deriving DecidableEq

/-- Modelled from the spec: `sym_flags_lhs` flags (spec section 6). -/
structure FlagsM where
  captureFlag : Bool
  stopCaptureFlag : Bool
  deriving DecidableEq

/-- Modelled from the spec: the immutable compiled grammar interface
(spec section 6, "Grammar contract").  `symIdxDot r` is the symbol right
after the dot of rule position `r` (NULLSYM means the rule is complete),
and advancing a dot is `r + 1`. -/
structure CGrammar where
  startSym : Nat
  symData : Nat → CSymbol
  symIdxDot : Nat → Nat
  symIdxLhs : Nat → Nat
  flagsLhs : Nat → FlagsM
  rulesOf : Nat → List Nat
  lexerSpec : LexerSpecM

/-- Convenience mirroring grammar.rs `sym_data_dot`. -/
def CGrammar.symDataDot (g : CGrammar) (pos : Nat) : CSymbol :=
  g.symData (g.symIdxDot pos)

/-- HashMap from LexemeIdx to usize (RowInfo.max_tokens), modelled as an
association list with unique keys; insertion order stands in for hash order,
which no claim observes. -/
abbrev MTMap := List (Nat × Nat)

/-- HashMap::get. -/
def MTMap.getKey (m : MTMap) (k : Nat) : Option Nat :=
  (m.find? (fun p => p.1 == k)).map (·.2)

/-- HashMap::insert (replacing an existing binding). -/
def MTMap.insertKV (m : MTMap) (k v : Nat) : MTMap :=
  if (m.find? (fun p => p.1 == k)).isSome then
    m.map (fun p => if p.1 == k then (k, v) else p)
  else
    m ++ [(k, v)]

/-- HashMap::remove. -/
def MTMap.removeKey (m : MTMap) (k : Nat) : MTMap :=
  m.filter (fun p => p.1 != k)

/-- Row (parser.rs lines 104-115): a half-open item range into the scratch
arena plus the set of lexemes admissible from this row. -/
structure RowM where
  firstItem : Nat
  lastItem : Nat
  allowedLexemes : LexSet
  deriving DecidableEq

/-- Default used where Rust indexing would panic out of bounds. -/
def RowM.empty : RowM := ⟨0, 0, []⟩

/-- RowInfo (parser.rs lines 152-159), attached to definitive rows only. -/
structure RowInfoM where
  startByteIdx : Nat
  lexeme : Lexeme
  tokenIdxStart : Nat
  tokenIdxStop : Nat
  maxTokens : MTMap
  deriving DecidableEq

/-- RowInfo::apply_token_idx (parser.rs line 162). -/
def RowInfoM.applyTokenIdx (ri : RowInfoM) (idx : Nat) : RowInfoM :=
  { ri with tokenIdxStart := min ri.tokenIdxStart idx,
            tokenIdxStop := max ri.tokenIdxStop idx }

/-- Default used where Rust indexing would panic out of bounds. -/
def RowInfoM.empty : RowInfoM := ⟨0, Lexeme.bogus, 0, 0, []⟩

/-- LexerState (parser.rs lines 187-192): one frame of the execution stack. -/
structure LexerStateM where
  rowIdx : Nat
  lexerState : Nat
  byte : Option Nat
  deriving DecidableEq

/-- Default used where Rust indexing would panic out of bounds (the stack is
never empty in any reachable state). -/
def LexerStateM.empty : LexerStateM := ⟨0, 0, none⟩

/-- ParserStats (parser.rs lines 83-90). -/
structure ParserStatsM where
  rows : Nat
  definitiveBytes : Nat
  lexerOps : Nat
  allItems : Nat
  hiddenBytes : Nat
  deriving DecidableEq

/-- All-zero stats (ParserStats::default). -/
def ParserStatsM.default : ParserStatsM := ⟨0, 0, 0, 0, 0⟩

/-- Scratch (parser.rs lines 142-150): the arena of the row under
construction.  The `grammar` field of the Rust struct is only used for debug
printing and is a parameter of every function here instead. -/
structure ScratchM where
  rowStart : Nat
  rowEnd : Nat
  items : List Item
  itemProps : List Nat
  definitive : Bool
  deriving DecidableEq

/-- Parser (parser.rs lines 194-211).  The immutable `grammar` and `lexer`
are parameters of every operation; the `options` field only feeds
`temperature()`, which no claim mentions, and is dropped. -/
structure ParserM where
  scratch : ScratchM
  trieLexerStack : Nat
  captures : List (String × List Nat)
  lexerStack : List LexerStateM
  rows : List RowM
  rowInfos : List RowInfoM
  stats : ParserStatsM
  lastCollapse : Nat
  tokenIdx : Nat
  byteIdx : Nat
  trieGenGrammar : Option Nat
  trieGenGrammarAccepting : Bool
  deriving DecidableEq

namespace ScratchM

/-- Scratch::new_row (parser.rs line 225). -/
def newRow (s : ScratchM) (pos : Nat) : ScratchM :=
  { s with rowStart := pos, rowEnd := pos }

/-- Scratch::row_len (parser.rs line 230). -/
def rowLen (s : ScratchM) : Nat := s.rowEnd - s.rowStart

/-- Scratch::work_row (parser.rs line 234). -/
def workRow (s : ScratchM) (allowedLexemes : LexSet) : RowM :=
  ⟨s.rowStart, s.rowEnd, allowedLexemes⟩

/-- Scratch::ensure_items (parser.rs line 243): `set_len` exposes
uninitialized capacity, modelled as `Item.NULL` padding (never read before
being overwritten). -/
def ensureItems (s : ScratchM) (n : Nat) : ScratchM :=
  if s.items.length < n then
    { s with items := s.items ++ List.replicate (n - s.items.length) Item.NULL }
  else s

/-- Scratch::merge_item_origin (parser.rs line 252): ItemProps::merge takes
the minimum hidden_start. -/
def mergeItemOrigin (s : ScratchM) (targetItemIdx originItemIdx : Nat) : ScratchM :=
  let v := min (s.itemProps.getD targetItemIdx USIZE_MAX)
    (s.itemProps.getD originItemIdx USIZE_MAX)
  { s with itemProps := s.itemProps.set targetItemIdx v }

/-- Scratch::just_add (parser.rs lines 258-280), sans debug logging. -/
def justAdd (s : ScratchM) (item : Item) (originItemIdx : Nat) : ScratchM :=
  let s1 := s.ensureItems (s.rowEnd + 1)
  let s2 := { s1 with items := s1.items.set s1.rowEnd item }
  let s3 :=
    if s2.definitive then
      let s2a :=
        if s2.itemProps.length ≤ s2.rowEnd then
          { s2 with itemProps := s2.itemProps ++ [USIZE_MAX] }
        else
          { s2 with itemProps := s2.itemProps.set s2.rowEnd USIZE_MAX }
      s2a.mergeItemOrigin s2a.rowEnd originItemIdx
    else s2
  { s3 with rowEnd := s3.rowEnd + 1 }

/-- Scratch::find_item (parser.rs line 283): linear scan of the row under
construction. -/
def findItem (s : ScratchM) (item : Item) : Option Nat :=
  (((s.items.drop s.rowStart).take (s.rowEnd - s.rowStart)).findIdx?
      (· == item)).map (· + s.rowStart)

/-- Scratch::set_hidden_start (parser.rs line 290).  The Rust code unwraps
`find_item`; a missing item would abort, and the model leaves the scratch
unchanged in that (unreachable) case. -/
def setHiddenStart (s : ScratchM) (item : Item) (hiddenStart : Nat) : ScratchM :=
  match s.findItem item with
  | some idx =>
      let v := min (s.itemProps.getD idx USIZE_MAX) hiddenStart
      { s with itemProps := s.itemProps.set idx v }
  | none => s

/-- Scratch::add_unique (parser.rs line 302). -/
def addUnique (s : ScratchM) (item : Item) (originItemIdx : Nat) : ScratchM :=
  match s.findItem item with
  | some idx => if s.definitive then s.mergeItemOrigin idx originItemIdx else s
  | none => s.justAdd item originItemIdx

end ScratchM

/-- Row::item_indices (parser.rs line 112), as the list of indices of the
half-open range. -/
def RowM.itemIndices (r : RowM) : List Nat :=
  (List.range (r.lastItem - r.firstItem)).map (r.firstItem + ·)

namespace ParserM

/-- Parser::lexer_state (parser.rs line 497): the top stack frame; the stack
is never empty in a reachable state. -/
def lexerStateTop (p : ParserM) : LexerStateM :=
  p.lexerStack.getLastD .empty

/-- Parser::num_rows (parser.rs line 502). -/
def numRows (p : ParserM) : Nat := p.lexerStateTop.rowIdx + 1

/-- Parser::pop_lexer_states (parser.rs line 506); the Rust code asserts
`lexer_stack.len() > n` and truncates. -/
def popLexerStates (p : ParserM) (n : Nat) : ParserM :=
  { p with lexerStack := p.lexerStack.take (p.lexerStack.length - n) }

/-- Parser::curr_row (parser.rs line 854). -/
def currRow (p : ParserM) : RowM :=
  p.rows.getD p.lexerStateTop.rowIdx RowM.empty

/-- Parser::curr_row_bytes (parser.rs line 1271): walk the stack from the
top while the frame belongs to the current row, collecting bytes. -/
def currRowBytes (p : ParserM) : List Nat :=
  let rowIdx := p.numRows - 1
  ((p.lexerStack.reverse.takeWhile (fun st => st.rowIdx == rowIdx)).filterMap
    (·.byte)).reverse

/-- Parser::has_pending_lexeme_bytes (parser.rs line 437). -/
def hasPendingLexemeBytes (p : ParserM) : Bool :=
  p.currRowBytes.length > 0

/-- Parser::after_dots (parser.rs line 411): rule positions of the current
row's items. -/
def afterDots (p : ParserM) : List Nat :=
  p.currRow.itemIndices.map (fun i => (p.scratch.items.getD i Item.NULL).ruleIdx)

/-- Parser::mk_lexeme (parser.rs line 1291). -/
def mkLexeme (p : ParserM) (byte : Option Nat) (preLexeme : PreLexeme) : Lexeme :=
  ⟨preLexeme.idx, p.currRowBytes ++ byte.toList, preLexeme.hiddenLen⟩

end ParserM

/-- Parser::row_is_accepting (parser.rs line 441): some item of the current
row has its dot at the end and the start symbol on the left-hand side. -/
def rowIsAccepting (g : CGrammar) (p : ParserM) : Bool :=
  p.afterDots.any (fun pos =>
    g.symIdxDot pos == NULLSYM && g.symIdxLhs pos == g.startSym)

/-- Parser::lexer_allows_eos (parser.rs line 454). -/
def lexerAllowsEos (lx : LexerM) (p : ParserM) : Bool :=
  if p.hasPendingLexemeBytes then lx.allowsEos p.lexerStateTop.lexerState
  else false

/-- Parser::has_forced_bytes (parser.rs lines 1299-1312): false on the empty
set, else every lexeme in the set must accept the bytes as forced. -/
def hasForcedBytes (spec : LexerSpecM) (allowedLexemes : LexSet) (bytes : List Nat) : Bool :=
  if allowedLexemes.isZero then false
  else
    allowedLexemes.indices.all (fun i =>
      (spec.lexemes.getD i ⟨fun _ => false⟩).forcedBytePred bytes)

/-- The Earley completer traversal inside push_row (parser.rs lines
1166-1174): advance every item of row `start_pos` whose next symbol is the
completed LHS. -/
def completerFold (g : CGrammar) (lhs : Nat) (idxs : List Nat) (p : ParserM) : ParserM :=
  idxs.foldl
    (fun (p : ParserM) i =>
      let it2 := p.scratch.items.getD i Item.NULL
      if g.symIdxDot it2.ruleIdx = lhs then
        { p with scratch := p.scratch.addUnique it2.advanceDot i }
      else p) p

/-- The Earley predictor inside push_row (parser.rs lines 1193-1196). -/
def predictorFold (currIdx itemIdx : Nat) (rules : List Nat) (p : ParserM) : ParserM :=
  rules.foldl
    (fun (p : ParserM) rule =>
      { p with scratch := p.scratch.addUnique (Item.new rule currIdx) itemIdx }) p

/-- The hidden-start recording inside push_row (parser.rs lines 1198-1203). -/
def hiddenStartFold (currIdx : Nat) (rules : List Nat) (p : ParserM) : ParserM :=
  rules.foldl
    (fun (p : ParserM) rule =>
      { p with scratch := p.scratch.setHiddenStart (Item.new rule currIdx) currIdx }) p

/-- The body of push_row's agenda loop for one item
(parser.rs lines 1113-1205). -/
def pushRowStep (g : CGrammar) (currIdx : Nat) (lexeme : Lexeme) (p : ParserM)
    (allowed : LexSet) (maxTok : List (Nat × Nat)) (agendaPtr : Nat) :
    ParserM × LexSet × List (Nat × Nat) :=
  let itemIdx := agendaPtr
  let item := p.scratch.items.getD agendaPtr Item.NULL
  let rule := item.ruleIdx
  let afterDot := g.symIdxDot rule
  if afterDot = NULLSYM then
    let flags := g.flagsLhs rule
    let lhs := g.symIdxLhs rule
    let p :=
      if p.scratch.definitive && flags.stopCaptureFlag then
        let varName := ((g.symData lhs).props.stopCaptureName).getD ""
        { p with captures := p.captures ++ [(varName, lexeme.hiddenBytes)] }
      else p
    let p :=
      if p.scratch.definitive && flags.captureFlag then
        let varName := ((g.symData lhs).props.captureName).getD ""
        let bytes0 :=
          if item.startPos < currIdx then
            (((p.rowInfos.drop item.startPos).take (currIdx - item.startPos)).map
              (fun ri => ri.lexeme.visibleBytes)).flatten
          else []
        { p with captures := p.captures ++ [(varName, bytes0 ++ lexeme.visibleBytes)] }
      else p
    let p :=
      if item.startPos < currIdx then
        completerFold g lhs ((p.rows.getD item.startPos RowM.empty).itemIndices) p
      else p
    (p, allowed, maxTok)
  else
    let symData := g.symData afterDot
    let allowed' :=
      match symData.lexeme with
      | some lxIdx => allowed.setIdx lxIdx true
      | none => allowed
    let maxTok' :=
      match symData.lexeme with
      | some lxIdx =>
          if p.scratch.definitive then maxTok ++ [(lxIdx, symData.props.maxTokens)]
          else maxTok
      | none => maxTok
    let p :=
      if symData.isNullable then
        let p1 := { p with scratch := p.scratch.addUnique item.advanceDot itemIdx }
        if p1.scratch.definitive && symData.props.captureName.isSome then
          let varName := symData.props.captureName.getD ""
          { p1 with captures := p1.captures ++ [(varName, [])] }
        else p1
      else p
    let p := predictorFold currIdx itemIdx symData.rules p
    let p :=
      if p.scratch.definitive && symData.props.hiddenFlag then
        hiddenStartFold currIdx symData.rules p
      else p
    (p, allowed', maxTok')

/-- The agenda loop of push_row (`while agenda_ptr < self.scratch.row_end`,
parser.rs line 1113), with explicit fuel; the extra returned `Nat` is the
final agenda pointer (equal to the final `row_end` exactly when the loop ran
to completion rather than out of fuel). -/
def pushRowLoop (g : CGrammar) (currIdx : Nat) (lexeme : Lexeme) :
    Nat → ParserM → LexSet → List (Nat × Nat) → Nat →
    ParserM × LexSet × List (Nat × Nat) × Nat
  | 0, p, allowed, maxTok, agendaPtr => (p, allowed, maxTok, agendaPtr)
  | fuel + 1, p, allowed, maxTok, agendaPtr =>
    if agendaPtr < p.scratch.rowEnd then
      let r := pushRowStep g currIdx lexeme p allowed maxTok agendaPtr
      pushRowLoop g currIdx lexeme fuel r.1 r.2.1 r.2.2 (agendaPtr + 1)
    else (p, allowed, maxTok, agendaPtr)

/-- One step of the max_tokens map fold of push_row (parser.rs lines
1238-1246): insert the budget, replacing an existing smaller one. -/
def mtInsertStep (m : MTMap) (q : Nat × Nat) : MTMap :=
  match m.getKey q.1 with
  | some ex => if ex < q.2 then m.insertKV q.1 q.2 else m
  | none => m.insertKV q.1 q.2

/-- The max_tokens map construction at the end of push_row
(parser.rs lines 1237-1255): fold the per-occurrence list keeping the larger
budget on a repeated lexeme, then drop entries equal to usize::MAX. -/
def buildMaxTokensMap (maxTok : List (Nat × Nat)) : MTMap :=
  let m := maxTok.foldl mtInsertStep []
  let toRemove := (m.filter (fun q => q.2 == USIZE_MAX)).map (·.1)
  toRemove.foldl (fun m k => m.removeKey k) m

/-- The tail of Parser::push_row after the agenda loop (parser.rs lines
1207-1267): bump stats, reject on an empty row, otherwise set the SKIP bit,
materialize the row and, in definitive mode, push the RowInfo. -/
def pushRowFinish (g : CGrammar) (p : ParserM) (allowed : LexSet)
    (maxTok : List (Nat × Nat)) : ParserM × Bool :=
  let rowLen := p.scratch.rowLen
  let p := { p with stats := { p.stats with rows := p.stats.rows + 1 } }
  if rowLen = 0 then (p, false)
  else
    let p := { p with stats := { p.stats with allItems := p.stats.allItems + rowLen } }
    let allowed := allowed.setIdx SKIP true
    let idx := p.numRows
    let row := p.scratch.workRow allowed
    let p :=
      if p.rows.length = 0 ∨ p.rows.length = idx then
        { p with rows := p.rows ++ [row] }
      else { p with rows := p.rows.set idx row }
    let p :=
      if p.scratch.definitive then
        let ris := if p.rowInfos.length > idx then p.rowInfos.take idx else p.rowInfos
        let ri : RowInfoM :=
          ⟨p.byteIdx, Lexeme.bogus, p.tokenIdx, p.tokenIdx, buildMaxTokensMap maxTok⟩
        { p with rowInfos := ris ++ [ri] }
      else p
    (p, true)

/-- Parser::push_row (parser.rs lines 1109-1268): run the agenda loop, then
materialize. -/
def pushRow (g : CGrammar) (fuel : Nat) (p : ParserM) (currIdx agendaPtr : Nat)
    (lexeme : Lexeme) : ParserM × Bool :=
  let allowed0 := LexSet.alloc g.lexerSpec.lexemes.length
  let L := pushRowLoop g currIdx lexeme fuel p allowed0 [] agendaPtr
  pushRowFinish g L.1 L.2.1 L.2.2.1

/-- The seeding loop of Parser::scan (parser.rs lines 1092-1099). -/
def scanFold (g : CGrammar) (lexemeIdx first n : Nat) (p : ParserM) : ParserM :=
  (List.range n).foldl
    (fun (p : ParserM) k =>
      let i := first + k
      let item := p.scratch.items.getD i Item.NULL
      let sym := g.symDataDot item.ruleIdx
      if sym.lexeme == some lexemeIdx then
        { p with scratch := p.scratch.justAdd item.advanceDot i }
      else p) p

/-- Parser::scan (parser.rs lines 1075-1101): seed the next row by advancing
every item whose next symbol's lexeme matches, then push the row. -/
def scan (g : CGrammar) (fuel : Nat) (p : ParserM) (lexeme : Lexeme) :
    ParserM × Bool :=
  let rowIdx := p.numRows - 1
  let row := p.rows.getD rowIdx RowM.empty
  let first := row.firstItem
  let last := row.lastItem
  let n := last - first
  let p := { p with scratch := (p.scratch.ensureItems (last + n + 100)).newRow last }
  let p := scanFold g lexeme.idx first n p
  pushRow g fuel p p.numRows p.scratch.rowStart lexeme

/-- The verbatim row copy of scan_skip_lexeme (parser.rs lines 1053-1056). -/
def copyFold (srcFirst n : Nat) (p : ParserM) : ParserM :=
  (List.range n).foldl
    (fun (p : ParserM) k =>
      let i := srcFirst + k
      { p with scratch := p.scratch.justAdd (p.scratch.items.getD i Item.NULL) i }) p

/-- Parser::scan_skip_lexeme (parser.rs lines 1043-1071): copy the current
row verbatim; push_row is entered with the agenda pointer at row_end so it
only materializes the row, and allowed_lexemes / max_tokens are inherited
from the preceding row. -/
def scanSkipLexeme (g : CGrammar) (fuel : Nat) (p : ParserM) (lexeme : Lexeme) :
    ParserM × Bool :=
  let row := p.currRow
  let srcFirst := row.firstItem
  let srcEnd := row.lastItem
  let allowedLexemes := row.allowedLexemes
  let n := srcEnd - srcFirst
  if n = 0 then (p, false)
  else
    let p := { p with scratch := (p.scratch.ensureItems (srcEnd + n + 100)).newRow srcEnd }
    let p := copyFold srcFirst n p
    -- the Rust code asserts the push_row result here
    let p := (pushRow g fuel p p.numRows p.scratch.rowEnd lexeme).1
    let addedRowIdx := p.numRows
    let row' := { p.rows.getD addedRowIdx RowM.empty with allowedLexemes := allowedLexemes }
    let p := { p with rows := p.rows.set addedRowIdx row' }
    let p :=
      if p.scratch.definitive then
        let mt := (p.rowInfos.getD (addedRowIdx - 1) RowInfoM.empty).maxTokens
        let ri' := { p.rowInfos.getD addedRowIdx RowInfoM.empty with maxTokens := mt }
        { p with rowInfos := p.rowInfos.set addedRowIdx ri' }
      else p
    (p, true)

/-- Parser::lexer_state_for_added_row (parser.rs lines 1315-1340); in
definitive mode this also records the scanned lexeme into the previous
row's RowInfo. -/
def lexerStateForAddedRow (lx : LexerM) (p : ParserM)
    (lexeme : Lexeme) (transitionByte : Option Nat) : ParserM × LexerStateM :=
  let addedRow := p.numRows
  let addedRowLexemes := (p.rows.getD addedRow RowM.empty).allowedLexemes
  let noHidden : LexerStateM :=
    ⟨addedRow, lx.startState addedRowLexemes transitionByte, transitionByte⟩
  let p :=
    if p.scratch.definitive then
      let ri' := { p.rowInfos.getD (addedRow - 1) RowInfoM.empty with lexeme := lexeme }
      { p with rowInfos := p.rowInfos.set (addedRow - 1) ri' }
    else p
  (p, noHidden)

/-- Parser::handle_hidden_bytes (parser.rs lines 1343-1411).  In the forced
branch the Rust code panics if replaying a hidden byte does not yield
`LexerResult::State`; the model keeps the lexer state unchanged in that
(asserted-unreachable) case. -/
def handleHiddenBytes (g : CGrammar) (lx : LexerM) (p : ParserM)
    (noHidden : LexerStateM) (lexemeByte : Option Nat) (preLexeme : PreLexeme) :
    ParserM :=
  -- the Rust code asserts !greedy here
  let addedRowLexemes := (p.rows.getD p.numRows RowM.empty).allowedLexemes
  let lexeme := p.mkLexeme lexemeByte preLexeme
  let hiddenBytes := lexeme.hiddenBytes
  -- the Rust code asserts hiddenBytes.length = preLexeme.hiddenLen here
  if hasForcedBytes g.lexerSpec addedRowLexemes hiddenBytes then
    let st0 := lx.startState addedRowLexemes none
    let p := p.popLexerStates (hiddenBytes.length - 1)
    let p := { p with stats := { p.stats with hiddenBytes := p.stats.hiddenBytes + hiddenBytes.length } }
    (hiddenBytes.foldl
      (fun (q : ParserM × Nat) b =>
        let next :=
          match lx.advanceFn q.2 b with
          | .state nextState _ => nextState
          | _ => q.2
        ({ q.1 with lexerStack := q.1.lexerStack ++ [⟨noHidden.rowIdx, next, some b⟩] },
         next))
      (p, st0)).1
  else
    if p.scratch.definitive then
      { p with lexerStack :=
          p.lexerStack ++ [⟨noHidden.rowIdx, lx.startState addedRowLexemes none, none⟩] }
    else
      { p with lexerStack :=
          p.lexerStack ++ [⟨noHidden.rowIdx, lx.aDeadState, none⟩] }

/-- Parser::advance_parser (parser.rs lines 1419-1491).  `recFuel` bounds the
recursion through the single-byte-lexeme branch; the source caps that depth
at 2 via the `byte_next_row` asserts, so top-level calls pass 2 and the
fuel-0 branch is unreachable from them. -/
def advanceParser (g : CGrammar) (lx : LexerM) (prFuel : Nat) :
    Nat → ParserM → PreLexeme → ParserM × Bool
  | 0, p, _ => (p, false)
  | recFuel + 1, p, preLexeme =>
    let transitionByte := if preLexeme.byteNextRow then preLexeme.byte else none
    let lexemeByte := if preLexeme.byteNextRow then none else preLexeme.byte
    let lexemeIdx := preLexeme.idx
    let lexeme :=
      if p.scratch.definitive then p.mkLexeme lexemeByte preLexeme
      else Lexeme.justIdx lexemeIdx
    let scanned :=
      if lexeme.idx = SKIP then scanSkipLexeme g prFuel p lexeme
      else scan g prFuel p lexeme
    match scanned with
    | (p, scanRes) =>
      if scanRes then
        match lexerStateForAddedRow lx p lexeme transitionByte with
        | (p, noHidden) =>
          if preLexeme.hiddenLen > 0 then
            (handleHiddenBytes g lx p noHidden lexemeByte preLexeme, true)
          else
            if preLexeme.byteNextRow && lx.isDead noHidden.lexerState then (p, false)
            else
              match transitionByte with
              | some b =>
                (match lx.checkSingleByteLexeme noHidden.lexerState b with
                 | some secondLexeme =>
                     let noHidden' := { noHidden with byte := none }
                     let p := { p with lexerStack := p.lexerStack ++ [noHidden'] }
                     -- the Rust code asserts preLexeme.byteNextRow and
                     -- !secondLexeme.byteNextRow here (recursion depth cap)
                     (match advanceParser g lx prFuel recFuel p secondLexeme with
                      | (p, true) =>
                          let newTop := p.lexerStack.getLastD .empty
                          let p := { p with lexerStack := p.lexerStack.dropLast }
                          let p := { p with lexerStack :=
                              p.lexerStack.set (p.lexerStack.length - 1) newTop }
                          (p, true)
                      | (p, false) =>
                          ({ p with lexerStack := p.lexerStack.dropLast }, false))
                 | none => ({ p with lexerStack := p.lexerStack ++ [noHidden] }, true))
              | none => ({ p with lexerStack := p.lexerStack ++ [noHidden] }, true)
      else (p, false)

/-- Parser::advance_lexer_or_parser (parser.rs lines 779-793). -/
def advanceLexerOrParser (g : CGrammar) (lx : LexerM) (fuel : Nat) (p : ParserM)
    (lexResult : LexerResult) (curr : LexerStateM) : ParserM × Bool :=
  match lexResult with
  | .state nextState b =>
      ({ p with lexerStack := p.lexerStack ++ [⟨curr.rowIdx, nextState, some b⟩] }, true)
  | .error => (p, false)
  | .lexeme preLexeme => advanceParser g lx fuel 2 p preLexeme

/-- Recognizer::try_push_byte (parser.rs lines 1536-1543); the Rust code
asserts !definitive on entry. -/
def tryPushByte (g : CGrammar) (lx : LexerM) (fuel : Nat) (p : ParserM)
    (byte : Nat) : ParserM × Bool :=
  let p := { p with stats := { p.stats with lexerOps := p.stats.lexerOps + 1 } }
  let curr := p.lexerStateTop
  let res := lx.advanceFn curr.lexerState byte
  advanceLexerOrParser g lx fuel p res curr

/-- Parser::try_push_byte_definitive (parser.rs lines 823-852); `none` means
force end-of-lexeme. -/
def tryPushByteDefinitive (g : CGrammar) (lx : LexerM) (fuel : Nat)
    (p : ParserM) (byte : Option Nat) : ParserM × Bool :=
  let curr := p.lexerStateTop
  match byte with
  | none => advanceLexerOrParser g lx fuel p (lx.forceLexemeEnd curr.lexerState) curr
  | some b =>
      let p := { p with stats := { p.stats with definitiveBytes := p.stats.definitiveBytes + 1 } }
      advanceLexerOrParser g lx fuel p (lx.advanceFn curr.lexerState b) curr

/-- Parser::flush_lexer (parser.rs lines 904-911). -/
def flushLexer (g : CGrammar) (lx : LexerM) (fuel : Nat) (p : ParserM) :
    ParserM × Bool :=
  if !p.hasPendingLexemeBytes then (p, true)
  else
    let curr := p.lexerStateTop
    advanceLexerOrParser g lx fuel p (lx.tryLexemeEnd curr.lexerState) curr

/-- Recognizer::pop_bytes (parser.rs line 1495). -/
def popBytes (p : ParserM) (num : Nat) : ParserM := p.popLexerStates num

/-- Parser::trie_started_inner (parser.rs lines 795-800). -/
def trieStartedInner (p : ParserM) : ParserM :=
  { p with trieLexerStack := p.lexerStack.length,
           scratch := { p.scratch with definitive := false } }

/-- Parser::trie_finished_inner (parser.rs lines 802-810): pop the stack back
to the saved depth and leave speculative mode. -/
def trieFinishedInner (p : ParserM) : ParserM :=
  let p := p.popLexerStates (p.lexerStack.length - p.trieLexerStack)
  { p with scratch := { p.scratch with definitive := true } }

/-- Parser::run_speculative (parser.rs lines 812-817). -/
def runSpeculative {α : Type} (f : ParserM → ParserM × α) (p : ParserM) :
    ParserM × α :=
  let p := trieStartedInner p
  let r := f p
  (trieFinishedInner r.1, r.2)

/-- Parser::is_accepting (parser.rs line 819):
`run_speculative(|s| s.flush_lexer() && s.row_is_accepting())`. -/
def isAccepting (g : CGrammar) (lx : LexerM) (fuel : Nat) (p : ParserM) :
    ParserM × Bool :=
  runSpeculative
    (fun s =>
      let r := flushLexer g lx fuel s
      (r.1, r.2 && rowIsAccepting g r.1)) p

/-- The byte loop of Parser::forced_byte (parser.rs lines 883-897): try each
byte, pop on success, abort with None on a second success. -/
def forcedByteLoop (g : CGrammar) (lx : LexerM) (fuel : Nat) :
    List Nat → ParserM → Option Nat → ParserM × Option Nat
  | [], p, byteSym => (p, byteSym)
  | b :: rest, p, byteSym =>
    match tryPushByte g lx fuel p b with
    | (p, true) =>
        let p := p.popLexerStates 1
        match byteSym with
        | some _ => (p, none)
        | none => forcedByteLoop g lx fuel rest p (some b)
    | (p, false) => forcedByteLoop g lx fuel rest p byteSym

/-- Parser::forced_byte (parser.rs lines 875-899). -/
def forcedByte (g : CGrammar) (lx : LexerM) (fuel : Nat) (p : ParserM) :
    ParserM × Option Nat :=
  match isAccepting g lx fuel p with
  | (p, true) => (p, none)
  | (p, false) =>
      runSpeculative (fun s => forcedByteLoop g lx fuel (List.range 256) s none) p

/-- Parser::force_bytes (parser.rs lines 757-776), with explicit fuel for the
outer while loop. -/
def forceBytes (g : CGrammar) (lx : LexerM) (fuel : Nat) :
    Nat → ParserM → ParserM × List Nat
  | 0, p => (p, [])
  | n + 1, p =>
    match forcedByte g lx fuel p with
    | (p, none) => (p, [])
    | (p, some b) =>
      match tryPushByteDefinitive g lx fuel p (some b) with
      | (p, true) =>
          (match forceBytes g lx fuel n p with
           | (p, bs) => (p, b :: bs))
      | (p, false) => (p, [])

/-- Modelled from the spec: `ModelVariable::eos_token()`; `ModelVariable` is
opaque to parser.rs and modelled as `Nat`, with eos_token fixed at 0. -/
def EOS_MV : Nat := 0

/-- The seeding loop of scan_gen_grammar_inner (parser.rs lines 969-976). -/
def genGrammarFold (g : CGrammar) (symidx : Nat) (idxs : List Nat) (p : ParserM) : ParserM :=
  idxs.foldl
    (fun (p : ParserM) idx =>
      let item := p.scratch.items.getD idx Item.NULL
      let sidx := g.symIdxDot item.ruleIdx
      if sidx = symidx then { p with scratch := p.scratch.addUnique item.advanceDot idx }
      else p) p

/-- The seeding loop of scan_model_variable (parser.rs lines 1021-1030). -/
def modelVarFold (g : CGrammar) (mv : Nat) (idxs : List Nat) (p : ParserM) : ParserM :=
  idxs.foldl
    (fun (p : ParserM) idx =>
      let item := p.scratch.items.getD idx Item.NULL
      let symData := g.symDataDot item.ruleIdx
      if symData.props.modelVariable == some mv then
        { p with scratch := p.scratch.addUnique item.advanceDot idx }
      else p) p

/-- Parser::scan_gen_grammar_inner (parser.rs lines 964-992); the Rust code
asserts row_len > 0 before pushing. -/
def scanGenGrammarInner (g : CGrammar) (lx : LexerM) (fuel : Nat) (p : ParserM)
    (symidx : Nat) (innerBytes : List Nat) : ParserM × Bool :=
  let p := { p with scratch := p.scratch.newRow p.currRow.lastItem }
  let idxs := p.currRow.itemIndices
  let p := genGrammarFold g symidx idxs p
  let lexeme : Lexeme := ⟨SKIP, innerBytes, 0⟩
  match pushRow g fuel p p.numRows p.scratch.rowStart lexeme with
  | (p, true) =>
      (match lexerStateForAddedRow lx p lexeme none with
       | (p, lexerState) => ({ p with lexerStack := p.lexerStack ++ [lexerState] }, true))
  | (p, false) => (p, false)

/-- Parser::scan_model_variable (parser.rs lines 994-1040). -/
def scanModelVariable (g : CGrammar) (lx : LexerM) (fuel : Nat) (p : ParserM)
    (mv : Nat) : ParserM × Bool :=
  let lexerEos := lexerAllowsEos lx p
  match flushLexer g lx fuel p with
  | (p, false) => (p, false)
  | (p, true) =>
    if mv = EOS_MV && lexerEos then (p, true)
    else
      let p := { p with scratch := p.scratch.newRow p.currRow.lastItem }
      let idxs := p.currRow.itemIndices
      let p := modelVarFold g mv idxs p
      if p.scratch.rowLen = 0 then (p, false)
      else pushRow g fuel p p.numRows p.scratch.rowStart Lexeme.bogus

/-- Parser::get_bytes_and_lexeme_indices (parser.rs lines 528-546): flatten
the visible bytes of all rows (the in-progress row contributes its pending
bytes), recording per-byte row indices and rewriting start_byte_idx. -/
def getBytesAndLexemeIndices (p : ParserM) : ParserM × List Nat × List Nat :=
  (List.range p.rowInfos.length).foldl
    (fun (acc : ParserM × List Nat × List Nat) idx =>
      let p := acc.1
      let indices := acc.2.1
      let allbytes := acc.2.2
      let ri := p.rowInfos.getD idx RowInfoM.empty
      let bytes0 := ri.lexeme.visibleBytes
      let bytes :=
        if bytes0.isEmpty && idx = p.numRows - 1 then p.currRowBytes else bytes0
      let p := { p with rowInfos :=
          p.rowInfos.set idx { ri with startByteIdx := allbytes.length } }
      (p, indices ++ List.replicate bytes.length idx, allbytes ++ bytes))
    (p, [], [])

/-- Parser::get_bytes (parser.rs line 548). -/
def getBytes (p : ParserM) : List Nat :=
  (getBytesAndLexemeIndices p).2.2

/-- Parser::filter_max_tokens (parser.rs lines 714-755): sweep all rows,
dropping items whose LHS max_tokens budget is exhausted and compacting in
place; a sentinel RowInfo is pushed and popped around the sweep. -/
def filterMaxTokens (g : CGrammar) (p : ParserM) : ParserM :=
  let sentinel : RowInfoM := ⟨0, Lexeme.bogus, p.tokenIdx, p.tokenIdx, []⟩
  let p := { p with rowInfos := p.rowInfos ++ [sentinel] }
  let p := ((List.range p.numRows).foldl
    (fun (acc : ParserM × Nat) idx =>
      let p := acc.1
      let dst := acc.2
      let range := (p.rows.getD idx RowM.empty).itemIndices
      let row1 := { p.rows.getD idx RowM.empty with firstItem := dst }
      let p := { p with rows := p.rows.set idx row1 }
      let inner := range.foldl
        (fun (acc2 : ParserM × Nat) i =>
          let p := acc2.1
          let dst := acc2.2
          let item := p.scratch.items.getD i Item.NULL
          let itemProps := p.scratch.itemProps.getD i USIZE_MAX
          let symData := g.symData (g.symIdxLhs item.ruleIdx)
          let maxTokens := symData.props.maxTokens
          let drop :=
            maxTokens ≠ USIZE_MAX &&
            (let startTokenIdx :=
              (p.rowInfos.getD (item.startPos + 1) RowInfoM.empty).tokenIdxStart
             p.tokenIdx - startTokenIdx ≥ maxTokens)
          if drop then (p, dst)
          else
            let p := { p with scratch :=
                { p.scratch with items := p.scratch.items.set dst item,
                                 itemProps := p.scratch.itemProps.set dst itemProps } }
            (p, dst + 1)) (p, dst)
      let p := inner.1
      let dst := inner.2
      let row2 := { p.rows.getD idx RowM.empty with lastItem := dst }
      let p := { p with rows := p.rows.set idx row2 }
      (p, dst)) (p, 0)).1
  { p with rowInfos := p.rowInfos.dropLast }

/-- Value of a usize reinterpreted as isize (used by apply_tokens'
info_tokens computation, parser.rs line 629). -/
def isizeOfUsize (u : Nat) : Int :=
  if u < 2 ^ 63 then (u : Int) else (u : Int) - 2 ^ 64

/-- The inner `loop` of apply_tokens' in-prefix branch (parser.rs lines
678-684): apply the token index to row_infos from last_lexeme on, stopping
once last_lexeme reaches indices[byte_idx]. -/
def applyIdxUpTo (tokIdx target lastLexeme : Nat) (ris : List RowInfoM) :
    List RowInfoM × Nat :=
  let ris := ris.set lastLexeme ((ris.getD lastLexeme RowInfoM.empty).applyTokenIdx tokIdx)
  if _h : lastLexeme ≥ target then (ris, lastLexeme)
  else applyIdxUpTo tokIdx target (lastLexeme + 1) ris
termination_by target - lastLexeme

/-- The end-of-token max_tokens consultation of apply_tokens (parser.rs
lines 627-666): limit the lexer state to lexemes whose budget still has
room; if everything is limited, force end-of-input. -/
def applyMaxTokensLimit (g : CGrammar) (lx : LexerM) (fuel vocabSize : Nat)
    (p : ParserM) (rowIdx : Nat) : ParserM × Option (Except String String) :=
  let info := p.rowInfos.getD rowIdx RowInfoM.empty
  let infoTokens := (max 0 ((p.tokenIdx : Int) + 1 - isizeOfUsize info.tokenIdxStart)).toNat
  let lexState := p.lexerStateTop.lexerState
  let folded := (lx.possibleLexemes lexState).indices.foldl
    (fun (acc : LexSet × Nat) idx =>
      let maxTokens := (info.maxTokens.getKey idx).getD USIZE_MAX
      if infoTokens < maxTokens then (acc.1.setIdx idx true, acc.2)
      else (acc.1, acc.2 + 1))
    (LexSet.alloc vocabSize, 0)
  let limit := folded.1
  let numLimit := folded.2
  if numLimit > 0 then
    let newState := lx.limitStateTo lexState limit
    if lx.isDead newState then
      match tryPushByteDefinitive g lx fuel p none with
      | (p, true) => (p, none)
      | (p, false) => (p, some (.ok "parse reject on max_tokens"))
    else
      let top' := { p.lexerStateTop with lexerState := newState }
      ({ p with lexerStack := p.lexerStack.set (p.lexerStack.length - 1) top' }, none)
  else (p, none)

/-- The mutable locals of apply_tokens' byte loop. -/
structure ApplyState where
  p : ParserM
  numSkip : Nat
  lastLexeme : Nat
  byteIdx : Nat
  deriving DecidableEq

/-- One iteration of apply_tokens' innermost byte loop (parser.rs lines
604-696); `Sum.inr` is an early return out of the whole function. -/
def applyTokensByte (g : CGrammar) (lx : LexerM) (fuel vocabSize : Nat)
    (indices grmBytes : List Nat) (tokLen tokIdx idxWithinToken b : Nat)
    (st : ApplyState) : Sum ApplyState (ParserM × Except String String) :=
  if st.numSkip > 0 then .inl { st with numSkip := st.numSkip - 1 }
  else if st.byteIdx ≥ grmBytes.length then
    let p := { st.p with tokenIdx := tokIdx, byteIdx := st.byteIdx }
    let rowIdx := p.numRows - 1
    let ri' := (p.rowInfos.getD rowIdx RowInfoM.empty).applyTokenIdx tokIdx
    let p := { p with rowInfos := p.rowInfos.set rowIdx ri' }
    match tryPushByteDefinitive g lx fuel p (some b) with
    | (p, false) => .inr (p, .ok "parse reject")
    | (p, true) =>
      let stepped :=
        if idxWithinToken = tokLen - 1 && rowIdx = p.numRows - 1 then
          applyMaxTokensLimit g lx fuel vocabSize p rowIdx
        else (p, none)
      match stepped with
      | (p, some r) => .inr (p, r)
      | (p, none) =>
        let itemCount := p.currRow.itemIndices.length
        if itemCount > MAX_ROW then
          -- bail! "Current row has N items; max is MAX_ROW; ..."
          .inr (p, .error "row overflow: consider making your grammar left-recursive if it is right-recursive")
        else
          .inl { st with p := p, lastLexeme := p.numRows - 1, byteIdx := st.byteIdx + 1 }
  else
    let target := indices.getD st.byteIdx 0
    match applyIdxUpTo tokIdx target st.lastLexeme st.p.rowInfos with
    | (ris, lastLexeme) =>
      let p := { st.p with rowInfos := ris }
      if grmBytes.getD st.byteIdx 0 ≠ b then .inr (p, .ok "static reject")
      else .inl { st with p := p, lastLexeme := lastLexeme, byteIdx := st.byteIdx + 1 }

/-- apply_tokens' loop over the bytes of one token. -/
def applyTokensBytesLoop (g : CGrammar) (lx : LexerM) (fuel vocabSize : Nat)
    (indices grmBytes : List Nat) (tokLen tokIdx : Nat) :
    List (Nat × Nat) → ApplyState → Sum ApplyState (ParserM × Except String String)
  | [], st => .inl st
  | (i, b) :: rest, st =>
    match applyTokensByte g lx fuel vocabSize indices grmBytes tokLen tokIdx i b st with
    | .inl st => applyTokensBytesLoop g lx fuel vocabSize indices grmBytes tokLen tokIdx rest st
    | .inr r => .inr r

/-- apply_tokens' loop over the token sequence. -/
def applyTokensLoop (g : CGrammar) (lx : LexerM) (fuel vocabSize : Nat)
    (indices grmBytes : List Nat) :
    List (Nat × List Nat) → ApplyState → Sum ApplyState (ParserM × Except String String)
  | [], st => .inl st
  | (tokIdx, tokBytes) :: rest, st =>
    match applyTokensBytesLoop g lx fuel vocabSize indices grmBytes tokBytes.length
        tokIdx tokBytes.enum st with
    | .inl st => applyTokensLoop g lx fuel vocabSize indices grmBytes rest st
    | .inr r => .inr r

/-- Parser::apply_tokens (parser.rs lines 585-712).  Tokens are given as
their byte sequences (`trie.token(t)`), and `vocabSize` is the size of
`trie.alloc_token_set()`.  `Except.error` models `bail!` (a hard error),
`Except.ok` the typed string variants. -/
def applyTokens (g : CGrammar) (lx : LexerM) (fuel vocabSize : Nat)
    (p : ParserM) (tokens : List (List Nat)) (numSkip : Nat) :
    ParserM × Except String String :=
  let ris0 := p.rowInfos.map (fun ri => { ri with tokenIdxStart := USIZE_MAX, tokenIdxStop := 0 })
  let p := { p with rowInfos := ris0 }
  match getBytesAndLexemeIndices p with
  | (p, indices, grmBytes) =>
    let st0 : ApplyState := ⟨p, numSkip, 0, 0⟩
    match applyTokensLoop g lx fuel vocabSize indices grmBytes tokens.enum st0 with
    | .inr r => r
    | .inl st =>
      let p := { st.p with tokenIdx := tokens.length }
      let n := p.rowInfos.length - st.lastLexeme
      let p := (List.range n).foldl
        (fun (p : ParserM) k =>
          let ll := st.lastLexeme + k
          let ri' := (p.rowInfos.getD ll RowInfoM.empty).applyTokenIdx p.tokenIdx
          { p with rowInfos := p.rowInfos.set ll ri' }) p
      (p, .ok "")

/-- Parser::new (parser.rs lines 330-375), given the external grammar and
lexer: seed row 0 from the start symbol's rules, push it, clear the SKIP bit
of row 0, and set the initial lexer state. -/
def mkInitial (g : CGrammar) (lx : LexerM) (fuel : Nat) : ParserM :=
  let p : ParserM :=
    { scratch := ⟨0, 0, [], [], true⟩,
      trieLexerStack := USIZE_MAX,
      captures := [],
      lexerStack := [⟨0, lx.aDeadState, none⟩],
      rows := [],
      rowInfos := [],
      stats := ParserStatsM.default,
      lastCollapse := 0,
      tokenIdx := 0,
      byteIdx := 0,
      trieGenGrammar := none,
      trieGenGrammarAccepting := false }
  let p := (g.rulesOf g.startSym).foldl
    (fun (p : ParserM) rule =>
      { p with scratch := p.scratch.addUnique (Item.new rule 0) 0 }) p
  let p := (pushRow g fuel p 0 p.scratch.rowStart Lexeme.bogus).1
  let row0 := p.rows.getD 0 RowM.empty
  let row0' := { row0 with allowedLexemes := row0.allowedLexemes.setIdx SKIP false }
  let p := { p with rows := p.rows.set 0 row0' }
  let st0 := p.lexerStack.getD 0 LexerStateM.empty
  let st0' := { st0 with lexerState := lx.startState (p.rows.getD 0 RowM.empty).allowedLexemes none }
  { p with lexerStack := p.lexerStack.set 0 st0' }

/-! ### Generic helper lemmas -/

/-- Folding a function that preserves a projection preserves the projection. -/
theorem foldl_preserves {α β γ : Type} (f : β → α → β) (proj : β → γ)
    (h : ∀ b a, proj (f b a) = proj b) : ∀ (l : List α) (b : β), proj (l.foldl f b) = proj b := by
  intro l
  induction l with
  | nil => intro b; rfl
  | cons x xs ih => intro b; rw [List.foldl_cons, ih, h]

/-- Projection of the parser onto the fields untouched by push_row's agenda
loop (everything except scratch items/props/rowEnd, captures and stats). -/
def sideOf (p : ParserM) :
    Nat × List LexerStateM × List RowM × List RowInfoM × Nat × Nat × Nat ×
      Option Nat × Bool × Bool × Nat :=
  (p.trieLexerStack, p.lexerStack, p.rows, p.rowInfos, p.lastCollapse, p.tokenIdx,
   p.byteIdx, p.trieGenGrammar, p.trieGenGrammarAccepting, p.scratch.definitive,
   p.scratch.rowStart)

theorem sideOf_scratch_upd (p : ParserM) (sc : ScratchM)
    (h1 : sc.definitive = p.scratch.definitive) (h2 : sc.rowStart = p.scratch.rowStart) :
    sideOf { p with scratch := sc } = sideOf p := by
  simp [sideOf, h1, h2]

theorem ScratchM.ensureItems_definitive (s : ScratchM) (n : Nat) :
    (s.ensureItems n).definitive = s.definitive := by
  unfold ScratchM.ensureItems; split <;> rfl

theorem ScratchM.ensureItems_rowStart (s : ScratchM) (n : Nat) :
    (s.ensureItems n).rowStart = s.rowStart := by
  unfold ScratchM.ensureItems; split <;> rfl

theorem ScratchM.ensureItems_rowEnd (s : ScratchM) (n : Nat) :
    (s.ensureItems n).rowEnd = s.rowEnd := by
  unfold ScratchM.ensureItems; split <;> rfl

theorem ScratchM.justAdd_definitive (s : ScratchM) (it : Item) (o : Nat) :
    (s.justAdd it o).definitive = s.definitive := by
  simp only [ScratchM.justAdd, ScratchM.mergeItemOrigin]
  split <;> (try split) <;> simp [ScratchM.ensureItems_definitive]

theorem ScratchM.justAdd_rowStart (s : ScratchM) (it : Item) (o : Nat) :
    (s.justAdd it o).rowStart = s.rowStart := by
  simp only [ScratchM.justAdd, ScratchM.mergeItemOrigin]
  split <;> (try split) <;> simp [ScratchM.ensureItems_rowStart]

theorem ScratchM.justAdd_rowEnd (s : ScratchM) (it : Item) (o : Nat) :
    (s.justAdd it o).rowEnd = s.rowEnd + 1 := by
  simp only [ScratchM.justAdd, ScratchM.mergeItemOrigin]
  split <;> (try split) <;> simp [ScratchM.ensureItems_rowEnd]

theorem ScratchM.mergeItemOrigin_definitive (s : ScratchM) (t o : Nat) :
    (s.mergeItemOrigin t o).definitive = s.definitive := rfl

theorem ScratchM.mergeItemOrigin_rowStart (s : ScratchM) (t o : Nat) :
    (s.mergeItemOrigin t o).rowStart = s.rowStart := rfl

theorem ScratchM.mergeItemOrigin_rowEnd (s : ScratchM) (t o : Nat) :
    (s.mergeItemOrigin t o).rowEnd = s.rowEnd := rfl

theorem ScratchM.addUnique_definitive (s : ScratchM) (it : Item) (o : Nat) :
    (s.addUnique it o).definitive = s.definitive := by
  unfold ScratchM.addUnique
  cases s.findItem it <;> simp [ScratchM.justAdd_definitive, ScratchM.mergeItemOrigin_definitive]
  split <;> rfl

theorem ScratchM.addUnique_rowStart (s : ScratchM) (it : Item) (o : Nat) :
    (s.addUnique it o).rowStart = s.rowStart := by
  unfold ScratchM.addUnique
  cases s.findItem it <;> simp [ScratchM.justAdd_rowStart, ScratchM.mergeItemOrigin_rowStart]
  split <;> rfl

theorem ScratchM.setHiddenStart_definitive (s : ScratchM) (it : Item) (h : Nat) :
    (s.setHiddenStart it h).definitive = s.definitive := by
  unfold ScratchM.setHiddenStart
  cases s.findItem it <;> rfl

theorem ScratchM.setHiddenStart_rowStart (s : ScratchM) (it : Item) (h : Nat) :
    (s.setHiddenStart it h).rowStart = s.rowStart := by
  unfold ScratchM.setHiddenStart
  cases s.findItem it <;> rfl

theorem ScratchM.setHiddenStart_rowEnd (s : ScratchM) (it : Item) (h : Nat) :
    (s.setHiddenStart it h).rowEnd = s.rowEnd := by
  unfold ScratchM.setHiddenStart
  cases s.findItem it <;> rfl

theorem sideOf_captures_upd (p : ParserM) (c : List (String × List Nat)) :
    sideOf { p with captures := c } = sideOf p := rfl

theorem sideOf_addUnique_upd (p : ParserM) (it : Item) (o : Nat) :
    sideOf { p with scratch := p.scratch.addUnique it o } = sideOf p := by
  simp [sideOf, ScratchM.addUnique_definitive, ScratchM.addUnique_rowStart]

theorem sideOf_justAdd_upd (p : ParserM) (it : Item) (o : Nat) :
    sideOf { p with scratch := p.scratch.justAdd it o } = sideOf p := by
  simp [sideOf, ScratchM.justAdd_definitive, ScratchM.justAdd_rowStart]

theorem sideOf_setHiddenStart_upd (p : ParserM) (it : Item) (h : Nat) :
    sideOf { p with scratch := p.scratch.setHiddenStart it h } = sideOf p := by
  simp [sideOf, ScratchM.setHiddenStart_definitive, ScratchM.setHiddenStart_rowStart]

theorem completerFold_side (g : CGrammar) (lhs : Nat) (idxs : List Nat) (p : ParserM) :
    sideOf (completerFold g lhs idxs p) = sideOf p := by
  unfold completerFold
  apply foldl_preserves
  intro b a
  dsimp only
  split
  · exact sideOf_addUnique_upd ..
  · rfl

theorem predictorFold_side (currIdx itemIdx : Nat) (rules : List Nat) (p : ParserM) :
    sideOf (predictorFold currIdx itemIdx rules p) = sideOf p := by
  unfold predictorFold
  apply foldl_preserves
  intro b a
  exact sideOf_addUnique_upd ..

theorem hiddenStartFold_side (currIdx : Nat) (rules : List Nat) (p : ParserM) :
    sideOf (hiddenStartFold currIdx rules p) = sideOf p := by
  unfold hiddenStartFold
  apply foldl_preserves
  intro b a
  exact sideOf_setHiddenStart_upd ..

theorem scanFold_side (g : CGrammar) (lexemeIdx first n : Nat) (p : ParserM) :
    sideOf (scanFold g lexemeIdx first n p) = sideOf p := by
  unfold scanFold
  apply foldl_preserves
  intro b a
  dsimp only
  split
  · exact sideOf_justAdd_upd ..
  · rfl

theorem copyFold_side (srcFirst n : Nat) (p : ParserM) :
    sideOf (copyFold srcFirst n p) = sideOf p := by
  unfold copyFold
  apply foldl_preserves
  intro b a
  exact sideOf_justAdd_upd ..

theorem genGrammarFold_side (g : CGrammar) (symidx : Nat) (idxs : List Nat) (p : ParserM) :
    sideOf (genGrammarFold g symidx idxs p) = sideOf p := by
  unfold genGrammarFold
  apply foldl_preserves
  intro b a
  dsimp only
  split
  · exact sideOf_addUnique_upd ..
  · rfl

theorem modelVarFold_side (g : CGrammar) (mv : Nat) (idxs : List Nat) (p : ParserM) :
    sideOf (modelVarFold g mv idxs p) = sideOf p := by
  unfold modelVarFold
  apply foldl_preserves
  intro b a
  dsimp only
  split
  · exact sideOf_addUnique_upd ..
  · rfl

/-- push_row's per-item step only mutates the scratch arena and captures. -/
theorem pushRowStep_side (g : CGrammar) (currIdx : Nat) (lexeme : Lexeme)
    (p : ParserM) (allowed : LexSet) (maxTok : List (Nat × Nat)) (ap : Nat) :
    sideOf (pushRowStep g currIdx lexeme p allowed maxTok ap).1 = sideOf p := by
  unfold pushRowStep
  dsimp only
  split <;> split <;> (try split) <;> (try split) <;>
    (simp only [completerFold_side, hiddenStartFold_side, predictorFold_side] <;>
     simp [sideOf, ScratchM.addUnique_definitive, ScratchM.addUnique_rowStart])

/-- push_row's whole agenda loop only mutates the scratch arena and captures. -/
theorem pushRowLoop_side (g : CGrammar) (currIdx : Nat) (lexeme : Lexeme) :
    ∀ (fuel : Nat) (p : ParserM) (allowed : LexSet) (maxTok : List (Nat × Nat)) (ap : Nat),
      sideOf (pushRowLoop g currIdx lexeme fuel p allowed maxTok ap).1 = sideOf p := by
  intro fuel
  induction fuel with
  | zero => intro p a m ap; rfl
  | succ n ih =>
    intro p a m ap
    rw [pushRowLoop]
    dsimp only
    split
    · rw [ih, pushRowStep_side]
    · rfl

/-- The parser fields push_row never touches: everything except scratch,
captures, stats, rows and rowInfos. -/
def side2Of (p : ParserM) :
    Nat × List LexerStateM × Nat × Nat × Nat × Option Nat × Bool × Bool × Nat :=
  (p.trieLexerStack, p.lexerStack, p.lastCollapse, p.tokenIdx, p.byteIdx,
   p.trieGenGrammar, p.trieGenGrammarAccepting, p.scratch.definitive,
   p.scratch.rowStart)

theorem side2Of_of_sideOf {p q : ParserM} (h : sideOf p = sideOf q) :
    side2Of p = side2Of q := by
  simp only [sideOf, Prod.mk.injEq] at h
  simp [side2Of, h.1, h.2.1, h.2.2.2.1, h.2.2.2.2.1, h.2.2.2.2.2.1, h.2.2.2.2.2.2.1,
    h.2.2.2.2.2.2.2.1, h.2.2.2.2.2.2.2.2]

theorem pushRowFinish_side2 (g : CGrammar) (q : ParserM) (allowed : LexSet)
    (maxTok : List (Nat × Nat)) :
    side2Of (pushRowFinish g q allowed maxTok).1 = side2Of q := by
  unfold pushRowFinish
  dsimp only
  split <;> (try split) <;> (try split) <;> simp [side2Of]

theorem pushRow_side2 (g : CGrammar) (fuel : Nat) (p : ParserM)
    (currIdx agendaPtr : Nat) (lexeme : Lexeme) :
    side2Of (pushRow g fuel p currIdx agendaPtr lexeme).1 = side2Of p := by
  unfold pushRow
  dsimp only
  have hside := side2Of_of_sideOf (pushRowLoop_side g currIdx lexeme fuel p
    (LexSet.alloc g.lexerSpec.lexemes.length) [] agendaPtr)
  rw [pushRowFinish_side2, hside]

/-! ### Specification-side helper functions -/

/-- The items stored in the scratch arena at indices `[a, b)`. -/
def itemsBetween (s : ScratchM) (a b : Nat) : List Item :=
  (List.range (b - a)).map (fun k => s.items.getD (a + k) Item.NULL)

/-- The terminal-after-dot occurrences of a list of items: for each item
whose dot is not at the end and whose next symbol is bound to a lexeme, the
pair of that lexeme index and the symbol's max_tokens budget. -/
def termOccs (g : CGrammar) (items : List Item) : List (Nat × Nat) :=
  items.filterMap (fun it =>
    let afterDot := g.symIdxDot it.ruleIdx
    if afterDot = NULLSYM then none
    else
      match (g.symData afterDot).lexeme with
      | some lxIdx => some (lxIdx, (g.symData afterDot).props.maxTokens)
      | none => none)

/-- Maximum of a list of naturals (0 on the empty list). -/
def listMax (l : List Nat) : Nat := l.foldl max 0

/-! ### Association map lemmas -/

theorem MTMap.find?_replace_self (m : MTMap) (k v : Nat) :
    ((m.map (fun p => if p.1 == k then (k, v) else p)).find? (fun p => p.1 == k)) =
      (m.find? (fun p => p.1 == k)).map (fun _ => (k, v)) := by
  induction m with
  | nil => rfl
  | cons a rest ih =>
    by_cases ha : a.1 = k
    · rw [List.map_cons, if_pos (by simpa using ha),
        List.find?_cons_of_pos _ (by simp), List.find?_cons_of_pos _ (by simpa using ha)]
      rfl
    · rw [List.map_cons, if_neg (by simpa using ha),
        List.find?_cons_of_neg _ (by simpa using ha), List.find?_cons_of_neg _ (by simpa using ha), ih]

theorem MTMap.find?_replace_ne (m : MTMap) (k k' v : Nat) (hne : k ≠ k') :
    ((m.map (fun p => if p.1 == k' then (k', v) else p)).find? (fun p => p.1 == k)) =
      m.find? (fun p => p.1 == k) := by
  induction m with
  | nil => rfl
  | cons a rest ih =>
    by_cases ha : a.1 = k'
    · rw [List.map_cons, if_pos (by simpa using ha),
        List.find?_cons_of_neg _ (by simpa using Ne.symm hne),
        List.find?_cons_of_neg _ (by simp [ha, Ne.symm hne]), ih]
    · rw [List.map_cons, if_neg (by simpa using ha)]
      by_cases hak : a.1 = k
      · rw [List.find?_cons_of_pos _ (by simpa using hak),
          List.find?_cons_of_pos _ (by simpa using hak)]
      · rw [List.find?_cons_of_neg _ (by simpa using hak),
          List.find?_cons_of_neg _ (by simpa using hak), ih]

theorem MTMap.getKey_insertKV_self (m : MTMap) (k v : Nat) :
    (m.insertKV k v).getKey k = some v := by
  unfold MTMap.insertKV MTMap.getKey
  split
  · rename_i h
    rw [MTMap.find?_replace_self]
    obtain ⟨x, hx⟩ := Option.isSome_iff_exists.mp h
    rw [hx]
    rfl
  · rename_i h
    rw [List.find?_append]
    cases hf : m.find? (fun p => p.1 == k) with
    | some x => rw [hf] at h; simp at h
    | none => rw [Option.none_or, List.find?_cons_of_pos _ (by simp)]; rfl

theorem MTMap.getKey_insertKV_ne (m : MTMap) (k k' v : Nat) (hne : k ≠ k') :
    (m.insertKV k' v).getKey k = m.getKey k := by
  unfold MTMap.insertKV MTMap.getKey
  split
  · rw [MTMap.find?_replace_ne m k k' v hne]
  · rw [List.find?_append]
    cases hf : m.find? (fun p => p.1 == k) with
    | some x => simp
    | none =>
      have hkk : (k' == k) = false := by simpa using Ne.symm hne
      simp [List.find?, hkk]

theorem MTMap.getKey_removeKey_self (m : MTMap) (k : Nat) :
    (m.removeKey k).getKey k = none := by
  unfold MTMap.removeKey MTMap.getKey
  induction m with
  | nil => rfl
  | cons a rest ih =>
    rw [List.filter_cons]
    by_cases ha : a.1 = k
    · simpa [ha] using ih
    · have hb : (a.1 != k) = true := by simpa using ha
      rw [if_pos hb, List.find?_cons_of_neg _ (by simpa using ha)]
      exact ih

theorem MTMap.getKey_removeKey_ne (m : MTMap) (k k' : Nat) (hne : k ≠ k') :
    (m.removeKey k').getKey k = m.getKey k := by
  unfold MTMap.removeKey MTMap.getKey
  induction m with
  | nil => rfl
  | cons a rest ih =>
    rw [List.filter_cons]
    by_cases ha : a.1 = k'
    · have hb : (a.1 != k') = false := by simpa using ha
      rw [if_neg (by simp [hb]), List.find?_cons_of_neg _ (by simp [ha, Ne.symm hne]), ih]
    · have hb : (a.1 != k') = true := by simpa using ha
      rw [if_pos hb]
      by_cases hak : a.1 = k
      · rw [List.find?_cons_of_pos _ (by simpa using hak),
          List.find?_cons_of_pos _ (by simpa using hak)]
      · rw [List.find?_cons_of_neg _ (by simpa using hak),
          List.find?_cons_of_neg _ (by simpa using hak), ih]

/-- Keys of an association list are pairwise distinct. -/
def KeysUnique (m : MTMap) : Prop := (m.map (·.1)).Nodup

theorem MTMap.getKey_eq_some_iff_mem (m : MTMap) (k v : Nat) (hu : KeysUnique m) :
    m.getKey k = some v ↔ (k, v) ∈ m := by
  induction m with
  | nil => simp [MTMap.getKey]
  | cons a rest ih =>
    unfold KeysUnique at hu
    rw [List.map_cons, List.nodup_cons] at hu
    by_cases ha : a.1 = k
    · unfold MTMap.getKey
      rw [List.find?_cons_of_pos _ (by simpa using ha)]
      simp only [Option.map_some', Option.some.injEq, List.mem_cons]
      constructor
      · intro hv
        left
        rw [← ha, ← hv]
      · rintro (hv | hv)
        · rw [← hv]
        · exfalso
          apply hu.1
          rw [ha]
          simpa using List.mem_map_of_mem (fun q => q.1) hv
    · unfold MTMap.getKey at ih ⊢
      rw [List.find?_cons_of_neg _ (by simpa using ha), ih hu.2]
      simp only [List.mem_cons]
      constructor
      · intro hv; right; exact hv
      · rintro (hv | hv)
        · exfalso; apply ha; rw [← hv]
        · exact hv

theorem MTMap.keysUnique_insertKV (m : MTMap) (k v : Nat) (hu : KeysUnique m) :
    KeysUnique (m.insertKV k v) := by
  unfold MTMap.insertKV
  split
  · unfold KeysUnique at hu ⊢
    have : ((m.map (fun p => if p.1 == k then (k, v) else p)).map (·.1)) = m.map (·.1) := by
      rw [List.map_map]
      apply List.map_congr_left
      intro q _
      by_cases hq : q.1 = k
      · simp [hq]
      · simp [hq]
    rw [this]
    exact hu
  · rename_i h
    unfold KeysUnique at hu ⊢
    rw [List.map_append]
    apply List.Nodup.append hu (by simp)
    intro x hx hx2
    rw [List.map_cons, List.map_nil, List.mem_singleton] at hx2
    rw [hx2] at hx
    obtain ⟨q, hq, hq1⟩ := List.mem_map.mp hx
    cases hf : m.find? (fun p => p.1 == k) with
    | none =>
      have := List.find?_eq_none.mp hf q hq
      simp [hq1] at this
    | some y => rw [hf] at h; simp at h

theorem keysUnique_mtInsertStep (m : MTMap) (q : Nat × Nat) (hu : KeysUnique m) :
    KeysUnique (mtInsertStep m q) := by
  unfold mtInsertStep
  split
  · split
    · exact MTMap.keysUnique_insertKV m q.1 q.2 hu
    · exact hu
  · exact MTMap.keysUnique_insertKV m q.1 q.2 hu

theorem keysUnique_mtFold (l : List (Nat × Nat)) :
    ∀ m, KeysUnique m → KeysUnique (l.foldl mtInsertStep m) := by
  induction l with
  | nil => intro m hu; exact hu
  | cons q rest ih =>
    intro m hu
    exact ih _ (keysUnique_mtInsertStep m q hu)

/-- Accumulate max over a list into an optional running value. -/
def mtAccum (o : Option Nat) (vs : List Nat) : Option Nat :=
  vs.foldl (fun acc v => match acc with | none => some v | some e => some (max e v)) o

theorem mtAccum_some (vs : List Nat) : ∀ e, mtAccum (some e) vs = some (vs.foldl max e) := by
  induction vs with
  | nil => intro e; rfl
  | cons v rest ih => intro e; simpa [mtAccum] using ih (max e v)

theorem mtAccum_none (vs : List Nat) :
    mtAccum none vs = if vs = [] then none else some (listMax vs) := by
  cases vs with
  | nil => rfl
  | cons v rest =>
    have : mtAccum none (v :: rest) = mtAccum (some v) rest := rfl
    rw [this, mtAccum_some, if_neg (by simp)]
    unfold listMax
    simp [Nat.zero_max]

theorem mtFold_getKey (l : List (Nat × Nat)) :
    ∀ (m : MTMap) (k : Nat),
      ((l.foldl mtInsertStep m).getKey k) =
        mtAccum (m.getKey k) (((l.filter (fun q => q.1 = k)).map (·.2))) := by
  induction l with
  | nil => intro m k; rfl
  | cons q rest ih =>
    intro m k
    rw [List.foldl_cons, ih, List.filter_cons]
    by_cases hq : q.1 = k
    · rw [if_pos (by simpa using hq), List.map_cons]
      have hm : (mtInsertStep m q).getKey k =
          (match m.getKey k with
           | none => some q.2
           | some e => some (max e q.2)) := by
        unfold mtInsertStep
        rw [← hq]
        cases hg : m.getKey q.1 with
        | none => simp [MTMap.getKey_insertKV_self]
        | some e =>
          by_cases he : e < q.2
          · simp [he, MTMap.getKey_insertKV_self, Nat.max_eq_right (Nat.le_of_lt he)]
          · simp [he, hg, Nat.max_eq_left (Nat.le_of_not_lt he)]
      rw [hm]
      cases hg : m.getKey k with
      | none => rfl
      | some e => rfl
    · rw [if_neg (by simpa using hq)]
      have hm : (mtInsertStep m q).getKey k = m.getKey k := by
        unfold mtInsertStep
        cases hg : m.getKey q.1 with
        | none => exact MTMap.getKey_insertKV_ne m k q.1 q.2 (by simpa using Ne.symm hq)
        | some e =>
          by_cases he : e < q.2
          · simp only [he, if_pos]
            exact MTMap.getKey_insertKV_ne m k q.1 q.2 (by simpa using Ne.symm hq)
          · simp [he]
      rw [hm]

theorem removeAll_getKey (R : List Nat) :
    ∀ (m : MTMap) (k : Nat),
      (R.foldl (fun m k => m.removeKey k) m).getKey k =
        if k ∈ R then none else m.getKey k := by
  induction R with
  | nil => intro m k; simp
  | cons r rest ih =>
    intro m k
    rw [List.foldl_cons, ih]
    by_cases hk : k ∈ rest
    · simp [hk]
    · by_cases hkr : k = r
      · simp [hk, hkr, MTMap.getKey_removeKey_self]
      · simp [hk, hkr, MTMap.getKey_removeKey_ne m k r hkr]

/-- The max_tokens map built by push_row binds a lexeme to the maximum of
its collected budgets, omitting unlimited ones. -/
theorem buildMaxTokensMap_getKey (l : List (Nat × Nat)) (k : Nat) :
    (buildMaxTokensMap l).getKey k =
      (let vals := (l.filter (fun q => q.1 = k)).map (·.2)
       if vals = [] then none
       else if listMax vals = USIZE_MAX then none else some (listMax vals)) := by
  unfold buildMaxTokensMap
  dsimp only
  rw [removeAll_getKey]
  have hu : KeysUnique (l.foldl mtInsertStep []) := keysUnique_mtFold l [] (by simp [KeysUnique])
  have hfold := mtFold_getKey l [] k
  have hgk : MTMap.getKey [] k = none := rfl
  rw [hgk, mtAccum_none] at hfold
  by_cases hmem : k ∈ ((l.foldl mtInsertStep []).filter (fun q => q.2 == USIZE_MAX)).map (·.1)
  · rw [if_pos hmem]
    obtain ⟨q, hq, hq1⟩ := List.mem_map.mp hmem
    have hq2 := List.of_mem_filter hq
    have hqm : (k, USIZE_MAX) ∈ l.foldl mtInsertStep [] := by
      have : q = (k, USIZE_MAX) := by
        cases q
        simp at hq1 hq2
        simp [hq1, hq2]
      rw [← this]
      exact List.mem_of_mem_filter hq
    have := (MTMap.getKey_eq_some_iff_mem _ k USIZE_MAX hu).mpr hqm
    rw [this] at hfold
    split at hfold
    · simp at hfold
    · rw [if_neg (by assumption)]
      simp at hfold
      rw [if_pos hfold.symm]
  · rw [if_neg hmem, hfold]
    split
    · rfl
    · rename_i hne
      by_cases hmax : listMax ((l.filter (fun q => q.1 = k)).map (·.2)) = USIZE_MAX
      · exfalso
        apply hmem
        have hsome : (l.foldl mtInsertStep []).getKey k = some USIZE_MAX := by
          rw [hfold, if_neg hne, hmax]
        have hm := (MTMap.getKey_eq_some_iff_mem _ k USIZE_MAX hu).mp hsome
        apply List.mem_map.mpr
        exact ⟨(k, USIZE_MAX), List.mem_filter_of_mem hm (by simp), rfl⟩
      · rw [if_neg hmax]

/-! ### Scratch stability -/

theorem getD_append_replicate (l : List Item) (m j : Nat) :
    (l ++ List.replicate m Item.NULL).getD j Item.NULL = l.getD j Item.NULL := by
  rcases Nat.lt_or_ge j l.length with h | h
  · exact List.getD_append _ _ _ _ h
  · rw [List.getD_eq_default _ _ h]
    rcases Nat.lt_or_ge j (l.length + m) with h2 | h2
    · rw [List.getD_eq_getElem _ _ (by simpa using h2),
        List.getElem_append_right (by omega)]
      simp [List.getElem_replicate]
    · exact List.getD_eq_default _ _ (by simpa using h2)

theorem ScratchM.ensureItems_getD (s : ScratchM) (n j : Nat) :
    (s.ensureItems n).items.getD j Item.NULL = s.items.getD j Item.NULL := by
  unfold ScratchM.ensureItems
  split
  · exact getD_append_replicate _ _ _
  · rfl

theorem getD_set_ne (l : List Item) (i j : Nat) (a : Item) (h : j ≠ i) :
    (l.set i a).getD j Item.NULL = l.getD j Item.NULL := by
  unfold List.getD
  rw [List.get?_eq_getElem?, List.get?_eq_getElem?, List.getElem?_set_ne (Ne.symm h)]

/-- Stability of the scratch arena under row construction: row pointers and
mode preserved, row only grows, and items below the original row_end keep
their values. -/
def ScratchStable (s s' : ScratchM) : Prop :=
  s'.rowStart = s.rowStart ∧ s'.definitive = s.definitive ∧ s.rowEnd ≤ s'.rowEnd ∧
  ∀ j, j < s.rowEnd → s'.items.getD j Item.NULL = s.items.getD j Item.NULL

theorem ScratchStable.refl (s : ScratchM) : ScratchStable s s :=
  ⟨rfl, rfl, Nat.le_refl _, fun _ _ => rfl⟩

theorem ScratchStable.trans {s1 s2 s3 : ScratchM}
    (h12 : ScratchStable s1 s2) (h23 : ScratchStable s2 s3) : ScratchStable s1 s3 :=
  ⟨h23.1.trans h12.1, h23.2.1.trans h12.2.1, h12.2.2.1.trans h23.2.2.1,
   fun j hj => (h23.2.2.2 j (Nat.lt_of_lt_of_le hj h12.2.2.1)).trans (h12.2.2.2 j hj)⟩

theorem ScratchM.justAdd_stable (s : ScratchM) (it : Item) (o : Nat) :
    ScratchStable s (s.justAdd it o) := by
  refine ⟨ScratchM.justAdd_rowStart s it o, ScratchM.justAdd_definitive s it o,
    by rw [ScratchM.justAdd_rowEnd]; omega, ?_⟩
  intro j hj
  show (s.justAdd it o).items.getD j Item.NULL = _
  unfold ScratchM.justAdd ScratchM.mergeItemOrigin
  have he := s.ensureItems_rowEnd (s.rowEnd + 1)
  dsimp only
  split <;> (try split) <;>
    (rw [getD_set_ne _ _ _ _ (by rw [he]; omega)] <;> exact s.ensureItems_getD _ j)

theorem ScratchM.mergeItemOrigin_stable (s : ScratchM) (t o : Nat) :
    ScratchStable s (s.mergeItemOrigin t o) :=
  ⟨rfl, rfl, Nat.le_refl _, fun _ _ => rfl⟩

theorem ScratchM.setHiddenStart_stable (s : ScratchM) (it : Item) (h : Nat) :
    ScratchStable s (s.setHiddenStart it h) := by
  unfold ScratchM.setHiddenStart
  cases s.findItem it with
  | none => exact ScratchStable.refl s
  | some idx => exact ⟨rfl, rfl, Nat.le_refl _, fun _ _ => rfl⟩

theorem ScratchM.addUnique_stable (s : ScratchM) (it : Item) (o : Nat) :
    ScratchStable s (s.addUnique it o) := by
  unfold ScratchM.addUnique
  cases s.findItem it with
  | none => exact s.justAdd_stable it o
  | some idx =>
    dsimp only
    by_cases hd : s.definitive = true
    · rw [if_pos hd]
      exact s.mergeItemOrigin_stable idx o
    · rw [if_neg hd]
      exact ScratchStable.refl s

/-- Fold a parser transformation that keeps the scratch stable. -/
theorem foldl_scratchStable {α : Type} (f : ParserM → α → ParserM)
    (hf : ∀ p x, ScratchStable p.scratch (f p x).scratch) :
    ∀ (l : List α) (p : ParserM), ScratchStable p.scratch (l.foldl f p).scratch := by
  intro l
  induction l with
  | nil => intro p; exact ScratchStable.refl _
  | cons x xs ih =>
    intro p
    exact ScratchStable.trans (hf p x) (ih (f p x))

theorem completerFold_stable (g : CGrammar) (lhs : Nat) (idxs : List Nat) (p : ParserM) :
    ScratchStable p.scratch (completerFold g lhs idxs p).scratch := by
  unfold completerFold
  apply foldl_scratchStable
  intro q x
  dsimp only
  split
  · exact q.scratch.addUnique_stable _ _
  · exact ScratchStable.refl _

theorem predictorFold_stable (currIdx itemIdx : Nat) (rules : List Nat) (p : ParserM) :
    ScratchStable p.scratch (predictorFold currIdx itemIdx rules p).scratch := by
  unfold predictorFold
  apply foldl_scratchStable
  intro q x
  exact q.scratch.addUnique_stable _ _

theorem hiddenStartFold_stable (currIdx : Nat) (rules : List Nat) (p : ParserM) :
    ScratchStable p.scratch (hiddenStartFold currIdx rules p).scratch := by
  unfold hiddenStartFold
  apply foldl_scratchStable
  intro q x
  exact q.scratch.setHiddenStart_stable _ _

theorem pushRowStep_stable (g : CGrammar) (currIdx : Nat) (lexeme : Lexeme)
    (p : ParserM) (allowed : LexSet) (maxTok : List (Nat × Nat)) (ap : Nat) :
    ScratchStable p.scratch (pushRowStep g currIdx lexeme p allowed maxTok ap).1.scratch := by
  unfold pushRowStep
  dsimp only
  split <;> split <;> (try split) <;> (try split) <;>
    first
      | exact ScratchStable.refl _
      | exact completerFold_stable ..
      | exact ScratchStable.trans (ScratchM.addUnique_stable ..) (predictorFold_stable ..)
      | exact predictorFold_stable ..
      | exact ScratchStable.trans (predictorFold_stable ..) (hiddenStartFold_stable ..)
      | exact ScratchStable.trans (ScratchM.addUnique_stable ..)
          (ScratchStable.trans (predictorFold_stable ..) (hiddenStartFold_stable ..))

/-! ### The push_row agenda loop and the collected occurrences -/

theorem termOccs_single (g : CGrammar) (it : Item) :
    termOccs g [it] =
      (if g.symIdxDot it.ruleIdx = NULLSYM then []
       else
        match (g.symData (g.symIdxDot it.ruleIdx)).lexeme with
        | some lxIdx => [(lxIdx, (g.symData (g.symIdxDot it.ruleIdx)).props.maxTokens)]
        | none => []) := by
  by_cases hn : g.symIdxDot it.ruleIdx = NULLSYM
  · simp [termOccs, hn]
  · cases hl : (g.symData (g.symIdxDot it.ruleIdx)).lexeme with
    | none => simp [termOccs, hn, hl]
    | some lxIdx => simp [termOccs, hn, hl]

/-- In definitive mode, one push_row step appends exactly the
terminal-after-dot occurrence of the processed item to the collected
max_tokens list. -/
theorem pushRowStep_maxTok (g : CGrammar) (currIdx : Nat) (lexeme : Lexeme)
    (p : ParserM) (allowed : LexSet) (maxTok : List (Nat × Nat)) (ap : Nat)
    (hdef : p.scratch.definitive = true) :
    (pushRowStep g currIdx lexeme p allowed maxTok ap).2.2 =
      maxTok ++ termOccs g [p.scratch.items.getD ap Item.NULL] := by
  unfold pushRowStep
  dsimp only
  rw [termOccs_single]
  split
  · simp
  · cases hl : (g.symData (g.symIdxDot (p.scratch.items.getD ap Item.NULL).ruleIdx)).lexeme with
    | none => simp
    | some lxIdx => simp [hdef]

/-- The head decomposition of an items slice. -/
theorem itemsBetween_cons (s : ScratchM) (a b : Nat) (h : a < b) :
    itemsBetween s a b = s.items.getD a Item.NULL :: itemsBetween s (a + 1) b := by
  unfold itemsBetween
  have hb : b - a = (b - (a + 1)) + 1 := by omega
  rw [hb, List.range_succ_eq_map, List.map_cons, List.map_map]
  congr 1
  apply List.map_congr_left
  intro k _
  simp only [Function.comp_apply]
  congr 1
  omega

/-- Slices agree on stable scratches. -/
theorem itemsBetween_stable {s s' : ScratchM} (a b : Nat) (hst : ScratchStable s s')
    (hb : b ≤ s.rowEnd) : itemsBetween s' a b = itemsBetween s a b := by
  unfold itemsBetween
  apply List.map_congr_left
  intro k hk
  simp only [List.mem_range] at hk
  exact hst.2.2.2 _ (by omega)

/-- Splitting off the head occurrence. -/
theorem termOccs_cons (g : CGrammar) (x : Item) (l : List Item) :
    termOccs g (x :: l) = termOccs g [x] ++ termOccs g l := by
  unfold termOccs
  rw [List.filterMap_cons, List.filterMap_cons, List.filterMap_nil]
  cases (if g.symIdxDot x.ruleIdx = NULLSYM then none
         else
          match (g.symData (g.symIdxDot x.ruleIdx)).lexeme with
          | some lxIdx => some (lxIdx, (g.symData (g.symIdxDot x.ruleIdx)).props.maxTokens)
          | none => none) <;> simp

/-- The push_row agenda loop invariant (definitive mode): the scratch stays
stable, the final agenda pointer lies between the initial one and the final
row end, and the collected max_tokens list is the initial one extended by
the terminal-after-dot occurrences of the processed items. -/
theorem pushRowLoop_maxTok_inv (g : CGrammar) (currIdx : Nat) (lexeme : Lexeme) :
    ∀ (fuel : Nat) (p : ParserM) (allowed : LexSet) (maxTok : List (Nat × Nat)) (ap : Nat),
      p.scratch.definitive = true → ap ≤ p.scratch.rowEnd →
      ScratchStable p.scratch (pushRowLoop g currIdx lexeme fuel p allowed maxTok ap).1.scratch ∧
      ap ≤ (pushRowLoop g currIdx lexeme fuel p allowed maxTok ap).2.2.2 ∧
      (pushRowLoop g currIdx lexeme fuel p allowed maxTok ap).2.2.2 ≤
        (pushRowLoop g currIdx lexeme fuel p allowed maxTok ap).1.scratch.rowEnd ∧
      (pushRowLoop g currIdx lexeme fuel p allowed maxTok ap).2.2.1 =
        maxTok ++ termOccs g (itemsBetween
          (pushRowLoop g currIdx lexeme fuel p allowed maxTok ap).1.scratch ap
          (pushRowLoop g currIdx lexeme fuel p allowed maxTok ap).2.2.2) := by
  intro fuel
  induction fuel with
  | zero =>
    intro p allowed maxTok ap hdef hap
    refine ⟨ScratchStable.refl _, Nat.le_refl _, hap, ?_⟩
    unfold itemsBetween
    simp [pushRowLoop, termOccs]
  | succ n ih =>
    intro p allowed maxTok ap hdef hap
    by_cases hlt : ap < p.scratch.rowEnd
    · have hstep := pushRowStep_stable g currIdx lexeme p allowed maxTok ap
      have hdef' : (pushRowStep g currIdx lexeme p allowed maxTok ap).1.scratch.definitive = true := by
        rw [hstep.2.1, hdef]
      have hap' : ap + 1 ≤ (pushRowStep g currIdx lexeme p allowed maxTok ap).1.scratch.rowEnd :=
        Nat.le_trans (by omega) hstep.2.2.1
      obtain ⟨ihst, ihap, ihend, ihmt⟩ := ih (pushRowStep g currIdx lexeme p allowed maxTok ap).1
        (pushRowStep g currIdx lexeme p allowed maxTok ap).2.1
        (pushRowStep g currIdx lexeme p allowed maxTok ap).2.2 (ap + 1) hdef' hap'
      have hloop : pushRowLoop g currIdx lexeme (n + 1) p allowed maxTok ap =
          pushRowLoop g currIdx lexeme n (pushRowStep g currIdx lexeme p allowed maxTok ap).1
            (pushRowStep g currIdx lexeme p allowed maxTok ap).2.1
            (pushRowStep g currIdx lexeme p allowed maxTok ap).2.2 (ap + 1) := by
        rw [pushRowLoop]
        dsimp only
        rw [if_pos hlt]
      rw [hloop]
      refine ⟨ScratchStable.trans hstep ihst, by omega, ihend, ?_⟩
      have hitem : (pushRowLoop g currIdx lexeme n (pushRowStep g currIdx lexeme p allowed maxTok ap).1
          (pushRowStep g currIdx lexeme p allowed maxTok ap).2.1
          (pushRowStep g currIdx lexeme p allowed maxTok ap).2.2 (ap + 1)).1.scratch.items.getD ap Item.NULL
          = p.scratch.items.getD ap Item.NULL :=
        (ScratchStable.trans hstep ihst).2.2.2 ap hlt
      have hmt' := pushRowStep_maxTok g currIdx lexeme p allowed maxTok ap hdef
      rw [ihmt]
      nth_rewrite 1 [hmt']
      rw [List.append_assoc]
      congr 1
      rw [itemsBetween_cons _ ap _ (by omega), termOccs_cons, hitem]
      rw [show termOccs g ([] : List Item) = [] from rfl, List.append_nil]
      exact (termOccs_cons g _ _).symm
    · have hloop : pushRowLoop g currIdx lexeme (n + 1) p allowed maxTok ap =
          (p, allowed, maxTok, ap) := by
        rw [pushRowLoop]
        dsimp only
        rw [if_neg hlt]
      rw [hloop]
      refine ⟨ScratchStable.refl _, Nat.le_refl _, hap, ?_⟩
      unfold itemsBetween
      simp [termOccs]

theorem pushRowStep_allowed_len (g : CGrammar) (currIdx : Nat) (lexeme : Lexeme)
    (p : ParserM) (allowed : LexSet) (maxTok : List (Nat × Nat)) (ap : Nat) :
    (pushRowStep g currIdx lexeme p allowed maxTok ap).2.1.length = allowed.length := by
  unfold pushRowStep
  dsimp only
  split
  · rfl
  · cases (g.symData (g.symIdxDot (p.scratch.items.getD ap Item.NULL).ruleIdx)).lexeme with
    | none => rfl
    | some lxIdx => simp [LexSet.setIdx]

theorem pushRowLoop_allowed_len (g : CGrammar) (currIdx : Nat) (lexeme : Lexeme) :
    ∀ (fuel : Nat) (p : ParserM) (allowed : LexSet) (maxTok : List (Nat × Nat)) (ap : Nat),
      (pushRowLoop g currIdx lexeme fuel p allowed maxTok ap).2.1.length = allowed.length := by
  intro fuel
  induction fuel with
  | zero => intro p allowed maxTok ap; rfl
  | succ n ih =>
    intro p allowed maxTok ap
    rw [pushRowLoop]
    dsimp only
    split
    · rw [ih, pushRowStep_allowed_len]
    · rfl

/-! ### push_row materialization -/

theorem getD_append_length (l : List RowM) (x : RowM) :
    (l ++ [x]).getD l.length RowM.empty = x := by
  unfold List.getD
  rw [List.get?_eq_getElem?, List.getElem?_append_right (Nat.le_refl _)]
  simp

theorem getD_set_self (l : List RowM) (i : Nat) (x : RowM) (h : i < l.length) :
    (l.set i x).getD i RowM.empty = x := by
  unfold List.getD
  rw [List.get?_eq_getElem?, List.getElem?_set_eq_of_lt x h]
  rfl

theorem getD_set_self2 (l : List Bool) (i : Nat) (x : Bool) (h : i < l.length) :
    (l.set i x).getD i false = x := by
  unfold List.getD
  rw [List.get?_eq_getElem?, List.getElem?_set_eq_of_lt x h]
  rfl

theorem lexSet_get_setIdx_skip (v : LexSet) (h : 0 < v.length) :
    LexSet.get (v.setIdx SKIP true) SKIP = true := by
  unfold LexSet.get LexSet.setIdx SKIP
  exact getD_set_self2 v 0 true h

/-- The index at which push_row materializes the new row (parser.rs lines
1225-1231): appended at `rows.len()` when the rows vector is empty or
exactly `num_rows()` long, assigned at `num_rows()` otherwise. -/
def pushRowTargetIdx (p : ParserM) : Nat :=
  if p.rows.length = 0 ∨ p.rows.length = p.numRows then p.rows.length else p.numRows

theorem pushRowFinish_false_iff (g : CGrammar) (q : ParserM) (allowed : LexSet)
    (maxTok : List (Nat × Nat)) :
    ((pushRowFinish g q allowed maxTok).2 = false ↔ q.scratch.rowLen = 0) := by
  unfold pushRowFinish
  dsimp only
  split
  · rename_i hz
    simp [hz]
  · rename_i hz
    simp [hz]

theorem pushRowFinish_scratch (g : CGrammar) (q : ParserM) (allowed : LexSet)
    (maxTok : List (Nat × Nat)) :
    (pushRowFinish g q allowed maxTok).1.scratch = q.scratch := by
  unfold pushRowFinish
  dsimp only
  split <;> (try split) <;> (try split) <;> rfl

theorem pushRowFinish_rows_success (g : CGrammar) (q : ParserM) (allowed : LexSet)
    (maxTok : List (Nat × Nat)) (h : ¬ q.scratch.rowLen = 0) :
    (pushRowFinish g q allowed maxTok).1.rows =
      (if q.rows.length = 0 ∨ q.rows.length = q.numRows then
        q.rows ++ [q.scratch.workRow (allowed.setIdx SKIP true)]
      else q.rows.set q.numRows (q.scratch.workRow (allowed.setIdx SKIP true))) := by
  unfold pushRowFinish
  dsimp only
  rw [if_neg h]
  dsimp only
  simp only [ParserM.numRows, ParserM.lexerStateTop]
  split <;> (try split) <;> rfl

theorem pushRowFinish_rowInfos_success (g : CGrammar) (q : ParserM) (allowed : LexSet)
    (maxTok : List (Nat × Nat)) (h : ¬ q.scratch.rowLen = 0)
    (hdef : q.scratch.definitive = true) :
    (pushRowFinish g q allowed maxTok).1.rowInfos =
      (if q.rowInfos.length > q.numRows then q.rowInfos.take q.numRows else q.rowInfos) ++
        [⟨q.byteIdx, Lexeme.bogus, q.tokenIdx, q.tokenIdx, buildMaxTokensMap maxTok⟩] := by
  unfold pushRowFinish
  dsimp only
  rw [if_neg h]
  dsimp only
  simp only [ParserM.numRows, ParserM.lexerStateTop, hdef]
  split <;> simp [hdef] <;> split <;> rfl

/-- On success, the row materialized by push_row (at `pushRowTargetIdx`) is
the loop scratch's work row with the SKIP bit set. -/
theorem pushRow_success_row (g : CGrammar) (fuel : Nat) (p : ParserM)
    (currIdx agendaPtr : Nat) (lexeme : Lexeme)
    (hrows : p.rows.length = 0 ∨ p.numRows ≤ p.rows.length)
    (hok : (pushRow g fuel p currIdx agendaPtr lexeme).2 = true) :
    (pushRow g fuel p currIdx agendaPtr lexeme).1.rows.getD (pushRowTargetIdx p) RowM.empty =
      (pushRowLoop g currIdx lexeme fuel p (LexSet.alloc g.lexerSpec.lexemes.length)
        [] agendaPtr).1.scratch.workRow
        (((pushRowLoop g currIdx lexeme fuel p (LexSet.alloc g.lexerSpec.lexemes.length)
          [] agendaPtr).2.1).setIdx SKIP true) := by
  have hside := pushRowLoop_side g currIdx lexeme fuel p
    (LexSet.alloc g.lexerSpec.lexemes.length) [] agendaPtr
  simp only [sideOf, Prod.mk.injEq] at hside
  have hrowsL := hside.2.2.1
  have hstack := hside.2.1
  have hnumL : (pushRowLoop g currIdx lexeme fuel p (LexSet.alloc g.lexerSpec.lexemes.length)
      [] agendaPtr).1.numRows = p.numRows := by
    unfold ParserM.numRows ParserM.lexerStateTop
    rw [hstack]
  unfold pushRow at hok ⊢
  dsimp only at hok ⊢
  have hz : ¬ (pushRowLoop g currIdx lexeme fuel p (LexSet.alloc g.lexerSpec.lexemes.length)
      [] agendaPtr).1.scratch.rowLen = 0 := by
    intro hzz
    rw [((pushRowFinish_false_iff _ _ _ _).mpr hzz : _)] at hok
    exact (Bool.false_ne_true) hok
  rw [pushRowFinish_rows_success _ _ _ _ hz, hrowsL, hnumL]
  unfold pushRowTargetIdx
  split
  · rename_i hcond
    rw [getD_append_length]
  · rename_i hcond
    push_neg at hcond
    have hlt : p.numRows < p.rows.length := by
      rcases hrows with h0 | hle
      · exact absurd h0 hcond.1
      · exact Nat.lt_of_le_of_ne hle (fun he => hcond.2 he.symm)
    rw [getD_set_self _ _ _ hlt]

/-! ### Concrete fixtures used by counterexamples and witnesses -/

/-- Symbol properties with no special features and unlimited max_tokens. -/
def props0 : SymProps := ⟨USIZE_MAX, none, none, false, none⟩

/-- A terminal symbol bound to the given lexeme with the given max_tokens. -/
def termSym (lexemeIdx maxTokens : Nat) : CSymbol :=
  ⟨false, true, [], some lexemeIdx, none, ⟨maxTokens, none, none, false, none⟩⟩

/-- A plain nonterminal with the given rules. -/
def ntSym (rules : List Nat) : CSymbol :=
  ⟨false, false, rules, none, none, props0⟩

/-- The data of the NULL symbol (never inspected on relevant paths). -/
def nullCSym : CSymbol := ⟨false, false, [], none, none, props0⟩

/-- Fixture grammar: start symbol 1 with rules `S -> T1 | S -> T2`, where the
terminals T1 (symbol 2) and T2 (symbol 3) are both tied to lexeme 1 but carry
max_tokens budgets 3 and 5 respectively.  Rule positions: 10 (dot before T1),
20 (dot before T2); 11/21 would be the completed positions. -/
def gMax : CGrammar :=
  { startSym := 1,
    symData := fun s =>
      if s = 1 then ntSym [10, 20]
      else if s = 2 then termSym 1 3
      else if s = 3 then termSym 1 5
      else nullCSym,
    symIdxDot := fun r => if r = 10 then 2 else if r = 20 then 3 else 0,
    symIdxLhs := fun _ => 1,
    flagsLhs := fun _ => ⟨false, false⟩,
    rulesOf := fun s => if s = 1 then [10, 20] else [],
    lexerSpec := ⟨[⟨fun _ => true⟩, ⟨fun _ => true⟩], true⟩ }

/-- A lexer that never completes a lexeme: every byte advances the DFA state
by one.  It trivially produces no hidden bytes. -/
def lxTriv : LexerM :=
  { advanceFn := fun st b => .state (st + 1) b,
    tryLexemeEnd := fun _ => .error,
    forceLexemeEnd := fun _ => .error,
    startState := fun _ _ => 0,
    aDeadState := 999,
    isDead := (· == 999),
    allowsEos := fun _ => false,
    possibleLexemes := fun _ => [],
    possibleHiddenLen := fun _ => 0,
    limitStateTo := fun st _ => st,
    checkSingleByteLexeme := fun _ _ => none }

/-- The seed state of `Parser::new` on `gMax`: the scratch arena holds the
two start items (one per rule of the start symbol), definitive mode, before
the initial push_row call. -/
def pSeed : ParserM :=
  let p : ParserM :=
    { scratch := ⟨0, 0, [], [], true⟩,
      trieLexerStack := USIZE_MAX,
      captures := [],
      lexerStack := [⟨0, lxTriv.aDeadState, none⟩],
      rows := [],
      rowInfos := [],
      stats := ParserStatsM.default,
      lastCollapse := 0,
      tokenIdx := 0,
      byteIdx := 0,
      trieGenGrammar := none,
      trieGenGrammarAccepting := false }
  (gMax.rulesOf gMax.startSym).foldl
    (fun (p : ParserM) rule =>
      { p with scratch := p.scratch.addUnique (Item.new rule 0) 0 }) p

/-- A reachable speculative state for the hidden-byte-free fixtures:
`Parser::new` on `gMax`/`lxTriv` followed by `trie_started_inner`. -/
def pTriv : ParserM := trieStartedInner (mkInitial gMax lxTriv 50)

/-- Fixture grammar: start symbol 1 with the single rule `S -> L`, where the
terminal L (symbol 2) is tied to lexeme 1.  Rule positions: 10 (dot before
L), 11 (completed). -/
def gHid : CGrammar :=
  { startSym := 1,
    symData := fun s =>
      if s = 1 then ntSym [10]
      else if s = 2 then termSym 1 USIZE_MAX
      else nullCSym,
    symIdxDot := fun r => if r = 10 then 2 else 0,
    symIdxLhs := fun _ => 1,
    flagsLhs := fun _ => ⟨false, false⟩,
    rulesOf := fun s => if s = 1 then [10] else [],
    lexerSpec := ⟨[⟨fun _ => true⟩, ⟨fun _ => true⟩], false⟩ }

/-- A lazy lexer for `gHid` whose second byte completes lexeme 1 with
`hidden_len = 2` (both bytes are hidden lookahead); every lexeme spec of
`gHid` accepts any bytes as forced, so the hidden bytes are replayed.
State 100 is the start state of row 0, state 200 the start state of
subsequent rows. -/
def lxHid : LexerM :=
  { advanceFn := fun st b =>
      if st = 100 then .state 101 b
      else if st = 101 then .lexeme ⟨1, some b, false, 2⟩
      else .state (st + 1) b,
    tryLexemeEnd := fun _ => .error,
    forceLexemeEnd := fun _ => .error,
    startState := fun al _ => if al.get 1 then 100 else 200,
    aDeadState := 999,
    isDead := (· == 999),
    allowsEos := fun _ => false,
    possibleLexemes := fun _ => [],
    possibleHiddenLen := fun _ => 0,
    limitStateTo := fun st _ => st,
    checkSingleByteLexeme := fun _ _ => none }

/-- The speculative state reached from `Parser::new` on `gHid`/`lxHid` by
entering a speculative region (`trie_started_inner`). -/
def pHid0 : ParserM := trieStartedInner (mkInitial gHid lxHid 50)

/-- The speculative state after additionally pushing one byte (the lexer
returns `State`, so one frame is pushed). -/
def pHid1 : ParserM := (tryPushByte gHid lxHid 50 pHid0 7).1

/-! ### C9: item packing and dot advancement -/

/-- C9: for every item constructed as `Item::new(rule, start)`,
`advance_dot()` yields an item whose rule index is `rule + 1` and whose
origin row (`start_pos`) is unchanged, for every rule index below
2^32 - 1. -/
theorem item_advanceDot_spec (rule start : Nat) (h : rule < 2 ^ 32 - 1) :
    ((Item.new rule start).advanceDot).ruleIdx = rule + 1 ∧
    ((Item.new rule start).advanceDot).startPos = (Item.new rule start).startPos := by
  unfold Item.new Item.advanceDot Item.ruleIdx Item.startPos
  dsimp only
  constructor <;> omega

/-- Witness for C9: the theorem applied at rule 5, origin 3. -/
theorem item_advanceDot_spec_witness :
    (5 : Nat) < 2 ^ 32 - 1 ∧
    (((Item.new 5 3).advanceDot).ruleIdx = 5 + 1 ∧
     ((Item.new 5 3).advanceDot).startPos = (Item.new 5 3).startPos) :=
  ⟨by norm_num, item_advanceDot_spec 5 3 (by norm_num)⟩

/-! ### C2: has_forced_bytes -/

/-- C2 (amended): `has_forced_bytes(allowed, bytes)` is true iff the allowed
set is non-empty and every lexeme in it accepts the bytes as forced; on the
empty set it returns false, not (vacuous) true. -/
theorem hasForcedBytes_nonzero_iff (spec : LexerSpecM) (v : LexSet) (bytes : List Nat) :
    hasForcedBytes spec v bytes = true ↔
      (v.isZero = false ∧
        ∀ i ∈ v.indices, (spec.lexemes.getD i ⟨fun _ => false⟩).forcedBytePred bytes = true) := by
  unfold hasForcedBytes
  split
  · simp [*]
  · simp only [List.all_eq_true]
    simp [*]

/-- Counterexample for C2 as frozen: on an all-false allowed set (so the
universally quantified acceptance condition holds vacuously, and the set's
single lexeme even accepts everything), `has_forced_bytes` returns false,
not true. -/
theorem hasForcedBytes_empty_cex :
    hasForcedBytes ⟨[⟨fun _ => true⟩], true⟩ (LexSet.alloc 1) [0] = false ∧
    LexSet.indices (LexSet.alloc 1) = [] := by
  exact ⟨rfl, rfl⟩

/-! ### C1: the max_tokens map pushed by push_row -/

/-- Counterexample for C1 as frozen: running `Parser::new` on `gMax`
(definitive mode, push_row over the two seed items) produces a row whose
terminal-after-dot occurrences of lexeme 1 carry the budgets 3 and 5; the
RowInfo that push_row pushed maps lexeme 1 to 5 — the maximum — while the
claim demands the minimum, 3. -/
theorem pushRow_maxTokens_min_cex :
    (let p := mkInitial gMax lxTriv 50
     let row := p.rows.getD 0 RowM.empty
     ((termOccs gMax (itemsBetween p.scratch row.firstItem row.lastItem)).filter
        (fun q => q.1 = 1)).map (·.2) = [3, 5] ∧
     ((p.rowInfos.getD 0 RowInfoM.empty).maxTokens).getKey 1 = some 5 ∧
     min 3 5 = 3 ∧ (5 : Nat) ≠ 3) := by
  decide


/-- C7: push_row returns false iff the row constructed by the
predict/complete fixpoint is empty; when it returns true, the materialized
row's allowed_lexemes bitset has the SKIP bit set. -/
theorem pushRow_false_iff_skip (g : CGrammar) (fuel : Nat) (p : ParserM)
    (currIdx agendaPtr : Nat) (lexeme : Lexeme)
    (hlen : 0 < g.lexerSpec.lexemes.length)
    (hrows : p.rows.length = 0 ∨ p.numRows ≤ p.rows.length) :
    ((pushRow g fuel p currIdx agendaPtr lexeme).2 = false ↔
      (pushRowLoop g currIdx lexeme fuel p (LexSet.alloc g.lexerSpec.lexemes.length)
        [] agendaPtr).1.scratch.rowLen = 0) ∧
    ((pushRow g fuel p currIdx agendaPtr lexeme).2 = true →
      LexSet.get ((pushRow g fuel p currIdx agendaPtr lexeme).1.rows.getD
        (pushRowTargetIdx p) RowM.empty).allowedLexemes SKIP = true) := by
  constructor
  · unfold pushRow
    dsimp only
    exact pushRowFinish_false_iff g _ _ _
  · intro hok
    rw [pushRow_success_row g fuel p currIdx agendaPtr lexeme hrows hok]
    show LexSet.get (((pushRowLoop g currIdx lexeme fuel p
      (LexSet.alloc g.lexerSpec.lexemes.length) [] agendaPtr).2.1).setIdx SKIP true) SKIP = true
    apply lexSet_get_setIdx_skip
    rw [pushRowLoop_allowed_len]
    simpa [LexSet.alloc] using hlen

/-- C1 amended: in definitive mode, entering push_row with the agenda at
the row start (the scan path), on success the pushed RowInfo's max_tokens
entry for any lexeme is the MAXIMUM of the terminal-after-dot budgets of
that lexeme over the new row's items, omitted when unlimited or when the
lexeme does not occur. -/
theorem pushRow_maxTokens_max (g : CGrammar) (fuel : Nat) (p : ParserM)
    (currIdx : Nat) (lexeme : Lexeme) (lxIdx : Nat)
    (hdef : p.scratch.definitive = true)
    (hse : p.scratch.rowStart ≤ p.scratch.rowEnd)
    (hrows : p.rows.length = 0 ∨ p.numRows ≤ p.rows.length)
    (hcomp : (pushRowLoop g currIdx lexeme fuel p (LexSet.alloc g.lexerSpec.lexemes.length)
        [] p.scratch.rowStart).2.2.2 =
      (pushRowLoop g currIdx lexeme fuel p (LexSet.alloc g.lexerSpec.lexemes.length)
        [] p.scratch.rowStart).1.scratch.rowEnd)
    (hok : (pushRow g fuel p currIdx p.scratch.rowStart lexeme).2 = true) :
    ((pushRow g fuel p currIdx p.scratch.rowStart lexeme).1.rowInfos.getLastD
        RowInfoM.empty).maxTokens.getKey lxIdx =
      (let row := (pushRow g fuel p currIdx p.scratch.rowStart lexeme).1.rows.getD
          (pushRowTargetIdx p) RowM.empty
       let vals := ((termOccs g (itemsBetween
          (pushRow g fuel p currIdx p.scratch.rowStart lexeme).1.scratch
          row.firstItem row.lastItem)).filter (fun q => q.1 = lxIdx)).map (fun q => q.2)
       if vals = [] then none
       else if listMax vals = USIZE_MAX then none else some (listMax vals)) := by
  obtain ⟨hst, hap1, hap2, hmt⟩ := pushRowLoop_maxTok_inv g currIdx lexeme fuel p
    (LexSet.alloc g.lexerSpec.lexemes.length) [] p.scratch.rowStart hdef hse
  have hz : ¬ (pushRowLoop g currIdx lexeme fuel p (LexSet.alloc g.lexerSpec.lexemes.length)
      [] p.scratch.rowStart).1.scratch.rowLen = 0 := by
    intro hzz
    unfold pushRow at hok
    dsimp only at hok
    rw [((pushRowFinish_false_iff _ _ _ _).mpr hzz : _)] at hok
    exact (Bool.false_ne_true) hok
  have hdefL : (pushRowLoop g currIdx lexeme fuel p (LexSet.alloc g.lexerSpec.lexemes.length)
      [] p.scratch.rowStart).1.scratch.definitive = true := by
    rw [hst.2.1, hdef]
  have hris : (pushRow g fuel p currIdx p.scratch.rowStart lexeme).1.rowInfos.getLastD
      RowInfoM.empty =
      ⟨(pushRowLoop g currIdx lexeme fuel p (LexSet.alloc g.lexerSpec.lexemes.length)
          [] p.scratch.rowStart).1.byteIdx, Lexeme.bogus,
       (pushRowLoop g currIdx lexeme fuel p (LexSet.alloc g.lexerSpec.lexemes.length)
          [] p.scratch.rowStart).1.tokenIdx,
       (pushRowLoop g currIdx lexeme fuel p (LexSet.alloc g.lexerSpec.lexemes.length)
          [] p.scratch.rowStart).1.tokenIdx,
       buildMaxTokensMap ((pushRowLoop g currIdx lexeme fuel p
          (LexSet.alloc g.lexerSpec.lexemes.length) [] p.scratch.rowStart).2.2.1)⟩ := by
    show ((pushRowFinish g _ _ _).1.rowInfos.getLastD RowInfoM.empty) = _
    rw [pushRowFinish_rowInfos_success _ _ _ _ hz hdefL, List.getLastD_concat]
  rw [hris]
  rw [pushRow_success_row g fuel p currIdx p.scratch.rowStart lexeme hrows hok]
  have hscr : (pushRow g fuel p currIdx p.scratch.rowStart lexeme).1.scratch =
      (pushRowLoop g currIdx lexeme fuel p (LexSet.alloc g.lexerSpec.lexemes.length)
        [] p.scratch.rowStart).1.scratch := by
    show (pushRowFinish g _ _ _).1.scratch = _
    exact pushRowFinish_scratch g _ _ _
  rw [hscr]
  dsimp only
  rw [buildMaxTokensMap_getKey]
  rw [hmt]
  rw [List.nil_append, hcomp]
  have hrw : (pushRowLoop g currIdx lexeme fuel p (LexSet.alloc g.lexerSpec.lexemes.length)
      [] p.scratch.rowStart).1.scratch.rowStart = p.scratch.rowStart := hst.1
  rw [ScratchM.workRow] at *
  dsimp only
  rw [hrw]


theorem pushRow_false_iff_skip_witness :
    ((pushRow gMax 50 pSeed 0 pSeed.scratch.rowStart Lexeme.bogus).2 = false ↔
      (pushRowLoop gMax 0 Lexeme.bogus 50 pSeed
        (LexSet.alloc gMax.lexerSpec.lexemes.length) [] pSeed.scratch.rowStart).1.scratch.rowLen = 0) ∧
    ((pushRow gMax 50 pSeed 0 pSeed.scratch.rowStart Lexeme.bogus).2 = true →
      LexSet.get ((pushRow gMax 50 pSeed 0 pSeed.scratch.rowStart Lexeme.bogus).1.rows.getD
        (pushRowTargetIdx pSeed) RowM.empty).allowedLexemes SKIP = true) :=
  pushRow_false_iff_skip gMax 50 pSeed 0 pSeed.scratch.rowStart Lexeme.bogus
    (by decide) (by decide)

theorem pushRow_maxTokens_max_witness :
    ((pushRow gMax 50 pSeed 0 pSeed.scratch.rowStart Lexeme.bogus).1.rowInfos.getLastD
        RowInfoM.empty).maxTokens.getKey 1 =
      (let row := (pushRow gMax 50 pSeed 0 pSeed.scratch.rowStart Lexeme.bogus).1.rows.getD
          (pushRowTargetIdx pSeed) RowM.empty
       let vals := ((termOccs gMax (itemsBetween
          (pushRow gMax 50 pSeed 0 pSeed.scratch.rowStart Lexeme.bogus).1.scratch
          row.firstItem row.lastItem)).filter (fun q => q.1 = 1)).map (fun q => q.2)
       if vals = [] then none
       else if listMax vals = USIZE_MAX then none else some (listMax vals)) :=
  pushRow_maxTokens_max gMax 50 pSeed 0 Lexeme.bogus 1
    (by decide) (by decide) (by decide) (by decide) (by decide)


theorem list_take_concat {α : Type} (s : List α) (a : α) : (s ++ [a]).take s.length = s := by
  induction s with
  | nil => rfl
  | cons x xs ih => simpa using ih

theorem list_set_concat {α : Type} (s : List α) (a b : α) :
    (s ++ [a]).set s.length b = s ++ [b] := by
  induction s with
  | nil => rfl
  | cons x xs ih => simpa using ih

theorem sideOf_lexerStack {p q : ParserM} (h : sideOf p = sideOf q) :
    p.lexerStack = q.lexerStack := by
  simp only [sideOf, Prod.mk.injEq] at h
  exact h.2.1

theorem side2Of_lexerStack {p q : ParserM} (h : side2Of p = side2Of q) :
    p.lexerStack = q.lexerStack := by
  simp only [side2Of, Prod.mk.injEq] at h
  exact h.2.1

theorem pushRow_lexerStack (g : CGrammar) (fuel : Nat) (p : ParserM)
    (currIdx agendaPtr : Nat) (lexeme : Lexeme) :
    (pushRow g fuel p currIdx agendaPtr lexeme).1.lexerStack = p.lexerStack :=
  side2Of_lexerStack (pushRow_side2 g fuel p currIdx agendaPtr lexeme)

theorem scan_lexerStack (g : CGrammar) (fuel : Nat) (p : ParserM) (lexeme : Lexeme) :
    (scan g fuel p lexeme).1.lexerStack = p.lexerStack := by
  unfold scan
  dsimp only
  rw [pushRow_lexerStack]
  exact (sideOf_lexerStack (scanFold_side ..)).trans rfl

theorem scanSkipLexeme_lexerStack (g : CGrammar) (fuel : Nat) (p : ParserM) (lexeme : Lexeme) :
    (scanSkipLexeme g fuel p lexeme).1.lexerStack = p.lexerStack := by
  unfold scanSkipLexeme
  dsimp only
  split
  · rfl
  · split <;>
      (show ParserM.lexerStack _ = _) <;>
      (dsimp only) <;>
      rw [pushRow_lexerStack] <;>
      exact (sideOf_lexerStack (copyFold_side ..)).trans rfl

theorem lexerStateForAddedRow_lexerStack (lx : LexerM) (p : ParserM)
    (lexeme : Lexeme) (tb : Option Nat) :
    (lexerStateForAddedRow lx p lexeme tb).1.lexerStack = p.lexerStack := by
  unfold lexerStateForAddedRow
  dsimp only
  split <;> rfl

/-- The lexer-stack effect of a parser advance: on success exactly one frame
is pushed on top of the given stack; on failure the stack is unchanged. -/
def StackOk (s : List LexerStateM) (r : ParserM × Bool) : Prop :=
  if r.2 then ∃ f, r.1.lexerStack = s ++ [f] else r.1.lexerStack = s

theorem set_last_concat {α : Type} (s : List α) (a b : α) :
    (s ++ [a]).set ((s ++ [a]).length - 1) b = s ++ [b] := by
  have h : (s ++ [a]).length - 1 = s.length := by simp
  rw [h, list_set_concat]

theorem take_pred_concat {α : Type} (s : List α) (a : α) :
    (s ++ [a]).take ((s ++ [a]).length - 1) = s := by
  have h : (s ++ [a]).length - 1 = s.length := by simp
  rw [h, list_take_concat]

theorem StackOk.push (s : List LexerStateM) (r : ParserM) (f : LexerStateM)
    (h : r.lexerStack = s ++ [f]) : StackOk s (r, true) := by
  simp [StackOk, h]

theorem StackOk.unchanged (s : List LexerStateM) (r : ParserM)
    (h : r.lexerStack = s) : StackOk s (r, false) := by
  simp [StackOk, h]

theorem advanceParser_lexerStack (g : CGrammar) (lx : LexerM) (prFuel : Nat)
    (hck : ∀ st b pl, lx.checkSingleByteLexeme st b = some pl → pl.hiddenLen = 0) :
    ∀ (recFuel : Nat) (p : ParserM) (pl : PreLexeme), pl.hiddenLen = 0 →
      StackOk p.lexerStack (advanceParser g lx prFuel recFuel p pl) := by
  intro recFuel
  induction recFuel with
  | zero =>
    intro p pl hpl
    simp [advanceParser, StackOk]
  | succ n ih =>
    intro p pl hpl
    rw [advanceParser]
    dsimp only
    generalize (if p.scratch.definitive = true then
        p.mkLexeme (if pl.byteNextRow = true then none else pl.byte) pl
      else Lexeme.justIdx pl.idx) = LEX
    generalize hTB : (if pl.byteNextRow = true then pl.byte else none) = TB
    generalize hSC : (if LEX.idx = SKIP then scanSkipLexeme g prFuel p LEX
      else scan g prFuel p LEX) = sc
    generalize hNH : lexerStateForAddedRow lx sc.1 LEX TB = NH
    have hscst : sc.1.lexerStack = p.lexerStack := by
      rw [← hSC]
      split
      · exact scanSkipLexeme_lexerStack ..
      · exact scan_lexerStack ..
    have hnhst : NH.1.lexerStack = p.lexerStack := by
      rw [← hNH]
      exact (lexerStateForAddedRow_lexerStack ..).trans hscst
    split
    · rw [if_neg (by omega : ¬ pl.hiddenLen > 0)]
      split
      · simp [StackOk, hnhst]
      · cases TB with
        | none => simp [StackOk, hnhst]
        | some b =>
          dsimp only
          cases hsl : lx.checkSingleByteLexeme NH.2.lexerState b with
          | none => simp [StackOk, hnhst]
          | some secondLexeme =>
            dsimp only
            have h0 : secondLexeme.hiddenLen = 0 := hck _ _ _ hsl
            have hIH := ih { NH.1 with lexerStack :=
                NH.1.lexerStack ++ [{ NH.2 with byte := none }] } secondLexeme h0
            dsimp only at hIH
            split
            · rename_i q heq
              rw [heq] at hIH
              simp only [StackOk] at hIH
              rw [if_pos trivial] at hIH
              obtain ⟨f, hf⟩ := hIH
              exact StackOk.push _ _ f (by
                show q.lexerStack.dropLast.set (q.lexerStack.dropLast.length - 1)
                    (q.lexerStack.getLastD LexerStateM.empty) = p.lexerStack ++ [f]
                rw [hf, List.getLastD_concat, List.dropLast_concat, set_last_concat, hnhst])
            · rename_i q heq
              rw [heq] at hIH
              simp only [StackOk] at hIH
              rw [if_neg (by simp)] at hIH
              exact StackOk.unchanged _ _ (by
                show q.lexerStack.dropLast = p.lexerStack
                rw [hIH, List.dropLast_concat, hnhst])
    · simp [StackOk, hscst]


/-- C3 (amended): for a lexer that produces no hidden bytes (neither from
advancing the DFA nor from the single-byte-lexeme check), any successful
try_push_byte pushes exactly one lexer-stack frame, so a following
pop_bytes(1) restores the whole lexer stack — depth, top row index and top
lexer state included. -/
theorem tryPushByte_popBytes_restores (g : CGrammar) (lx : LexerM) (fuel : Nat)
    (p : ParserM) (byte : Nat)
    (hnh1 : ∀ st b pl, lx.advanceFn st b = .lexeme pl → pl.hiddenLen = 0)
    (hnh2 : ∀ st b pl, lx.checkSingleByteLexeme st b = some pl → pl.hiddenLen = 0)
    (hok : (tryPushByte g lx fuel p byte).2 = true) :
    (popBytes (tryPushByte g lx fuel p byte).1 1).lexerStack = p.lexerStack := by
  unfold tryPushByte advanceLexerOrParser at hok ⊢
  dsimp only at hok ⊢
  split
  · rename_i nextState b heq
    rw [heq] at hok
    unfold popBytes ParserM.popLexerStates
    dsimp only
    rw [take_pred_concat]
  · rename_i heq
    rw [heq] at hok
    simp at hok
  · rename_i preLexeme heq
    rw [heq] at hok
    dsimp only at hok
    have h0 : preLexeme.hiddenLen = 0 := hnh1 _ _ _ heq
    have hSt := advanceParser_lexerStack g lx fuel hnh2 2
      { p with stats := { p.stats with lexerOps := p.stats.lexerOps + 1 } } preLexeme h0
    simp only [StackOk] at hSt
    rw [if_pos hok] at hSt
    obtain ⟨f, hf⟩ := hSt
    unfold popBytes ParserM.popLexerStates
    dsimp only
    rw [hf, take_pred_concat]

/-- Counterexample for C3 as frozen: from the reachable speculative state
`pHid1`, pushing byte 8 completes a lexeme with two hidden bytes whose
replay pops a pre-existing stack frame and pushes fresh ones; the following
pop_bytes(1) restores the stack depth but not the top frame: both its row
index and its lexer state differ from the pre-call state. -/
theorem tryPushByte_popBytes_cex :
    (tryPushByte gHid lxHid 50 pHid1 8).2 = true ∧
    (popBytes (tryPushByte gHid lxHid 50 pHid1 8).1 1).lexerStack.length
      = pHid1.lexerStack.length ∧
    (popBytes (tryPushByte gHid lxHid 50 pHid1 8).1 1).lexerStateTop.rowIdx
      ≠ pHid1.lexerStateTop.rowIdx ∧
    (popBytes (tryPushByte gHid lxHid 50 pHid1 8).1 1).lexerStateTop.lexerState
      ≠ pHid1.lexerStateTop.lexerState ∧
    pHid1.scratch.definitive = false := by
  decide

theorem tryPushByte_popBytes_restores_witness :
    (popBytes (tryPushByte gMax lxTriv 50 pTriv 7).1 1).lexerStack = pTriv.lexerStack :=
  tryPushByte_popBytes_restores gMax lxTriv 50 pTriv 7
    (by intro st b pl h; simp [lxTriv] at h)
    (by intro st b pl h; simp [lxTriv] at h)
    (by decide)


/-! ### scan_skip_lexeme: the verbatim row copy -/

theorem ScratchM.ensureItems_length (s : ScratchM) (n : Nat) :
    n ≤ (s.ensureItems n).items.length := by
  unfold ScratchM.ensureItems
  split
  · rename_i h
    simp only [List.length_append, List.length_replicate]
    omega
  · rename_i h
    omega

theorem getD_set_self3 (l : List Item) (i : Nat) (x : Item) (h : i < l.length) :
    (l.set i x).getD i Item.NULL = x := by
  unfold List.getD
  rw [List.get?_eq_getElem?, List.getElem?_set_eq_of_lt x h]
  rfl

theorem ScratchM.justAdd_getD_self (s : ScratchM) (it : Item) (o : Nat) :
    (s.justAdd it o).items.getD s.rowEnd Item.NULL = it := by
  unfold ScratchM.justAdd ScratchM.mergeItemOrigin
  dsimp only
  have hre := s.ensureItems_rowEnd (s.rowEnd + 1)
  have hlen : s.rowEnd < (s.ensureItems (s.rowEnd + 1)).items.length :=
    Nat.lt_of_lt_of_le (Nat.lt_succ_self _) (s.ensureItems_length (s.rowEnd + 1))
  split <;> (try split) <;>
    (rw [show (s.ensureItems (s.rowEnd + 1)).rowEnd = s.rowEnd from hre] <;>
     exact getD_set_self3 _ _ _ hlen)

theorem copyFold_succ (srcFirst n : Nat) (p : ParserM) :
    copyFold srcFirst (n + 1) p =
      (let q := copyFold srcFirst n p
       let sc := q.scratch.justAdd (q.scratch.items.getD (srcFirst + n) Item.NULL) (srcFirst + n)
       { q with scratch := sc }) := by
  unfold copyFold
  rw [List.range_succ, List.foldl_append]
  rfl

/-- The copy loop of scan_skip_lexeme: reading below the initial row end and
appending at the row end, it extends the row by `n` verbatim copies of the
items at `[srcFirst, srcFirst + n)` and leaves everything below untouched. -/
theorem copyFold_spec (srcFirst : Nat) :
    ∀ (n : Nat) (p : ParserM), srcFirst + n ≤ p.scratch.rowEnd →
      (copyFold srcFirst n p).scratch.rowEnd = p.scratch.rowEnd + n ∧
      (copyFold srcFirst n p).scratch.rowStart = p.scratch.rowStart ∧
      (copyFold srcFirst n p).scratch.definitive = p.scratch.definitive ∧
      (∀ j, j < p.scratch.rowEnd →
        (copyFold srcFirst n p).scratch.items.getD j Item.NULL =
          p.scratch.items.getD j Item.NULL) ∧
      (∀ k, k < n →
        (copyFold srcFirst n p).scratch.items.getD (p.scratch.rowEnd + k) Item.NULL =
          p.scratch.items.getD (srcFirst + k) Item.NULL) := by
  intro n
  induction n with
  | zero =>
    intro p h
    exact ⟨rfl, rfl, rfl, fun j hj => rfl, fun k hk => absurd hk (by omega)⟩
  | succ n ih =>
    intro p h
    obtain ⟨hE, hS, hD, hlow, hcopy⟩ := ih p (by omega)
    rw [copyFold_succ]
    dsimp only
    have hread : (copyFold srcFirst n p).scratch.items.getD (srcFirst + n) Item.NULL
        = p.scratch.items.getD (srcFirst + n) Item.NULL := hlow _ (by omega)
    have hstab := (copyFold srcFirst n p).scratch.justAdd_stable
      ((copyFold srcFirst n p).scratch.items.getD (srcFirst + n) Item.NULL) (srcFirst + n)
    refine ⟨?_, ?_, ?_, ?_, ?_⟩
    · rw [ScratchM.justAdd_rowEnd, hE]
      omega
    · rw [ScratchM.justAdd_rowStart, hS]
    · rw [ScratchM.justAdd_definitive, hD]
    · intro j hj
      rw [hstab.2.2.2 j (by omega), hlow j hj]
    · intro k hk
      rcases Nat.lt_or_ge k n with hkn | hkn
      · rw [hstab.2.2.2 _ (by omega), hcopy k hkn]
      · have hkn' : k = n := by omega
        subst hkn'
        have hidx : p.scratch.rowEnd + k = (copyFold srcFirst k p).scratch.rowEnd := by
          omega
        rw [hidx, ScratchM.justAdd_getD_self, hread]

theorem pushRowLoop_at_end (g : CGrammar) (currIdx : Nat) (lexeme : Lexeme)
    (fuel : Nat) (q : ParserM) (allowed : LexSet) (maxTok : List (Nat × Nat))
    (ap : Nat) (h : ¬ ap < q.scratch.rowEnd) :
    pushRowLoop g currIdx lexeme fuel q allowed maxTok ap = (q, allowed, maxTok, ap) := by
  cases fuel with
  | zero => rfl
  | succ n =>
    rw [pushRowLoop]
    dsimp only
    rw [if_neg h]

theorem pushRow_at_end (g : CGrammar) (fuel : Nat) (q : ParserM) (currIdx : Nat)
    (lexeme : Lexeme) :
    pushRow g fuel q currIdx q.scratch.rowEnd lexeme =
      pushRowFinish g q (LexSet.alloc g.lexerSpec.lexemes.length) [] := by
  unfold pushRow
  dsimp only
  rw [pushRowLoop_at_end g currIdx lexeme fuel q _ _ _ (by omega)]

theorem sideOf_rows {p q : ParserM} (h : sideOf p = sideOf q) : p.rows = q.rows := by
  simp only [sideOf, Prod.mk.injEq] at h
  exact h.2.2.1

/-- Where push_row's materialization lands: appended at the end or assigned
at `num_rows`, reading back at `num_rows` yields the work row. -/
theorem getD_materialize (l : List RowM) (m : Nat) (w : RowM) (hle : m ≤ l.length) :
    (if l.length = 0 ∨ l.length = m then l ++ [w] else l.set m w).getD m RowM.empty = w := by
  split
  · rename_i hc
    have hm : m = l.length := by omega
    rw [hm, getD_append_length]
  · rename_i hc
    push_neg at hc
    exact getD_set_self _ _ _ (by omega)


/-- C10: scan_skip_lexeme returns false from an empty current row, leaving
the parser unchanged; from a non-empty current row it returns true and the
added row holds exactly the items of the current row, copied verbatim. -/
theorem scanSkipLexeme_spec (g : CGrammar) (fuel : Nat) (p : ParserM) (lexeme : Lexeme)
    (hrows : p.numRows ≤ p.rows.length) :
    (p.currRow.lastItem - p.currRow.firstItem = 0 →
      scanSkipLexeme g fuel p lexeme = (p, false)) ∧
    (p.currRow.lastItem - p.currRow.firstItem ≠ 0 →
      (scanSkipLexeme g fuel p lexeme).2 = true ∧
      ((scanSkipLexeme g fuel p lexeme).1.rows.getD p.numRows RowM.empty).firstItem
        = p.currRow.lastItem ∧
      ((scanSkipLexeme g fuel p lexeme).1.rows.getD p.numRows RowM.empty).lastItem
        = p.currRow.lastItem + (p.currRow.lastItem - p.currRow.firstItem) ∧
      itemsBetween (scanSkipLexeme g fuel p lexeme).1.scratch
          ((scanSkipLexeme g fuel p lexeme).1.rows.getD p.numRows RowM.empty).firstItem
          ((scanSkipLexeme g fuel p lexeme).1.rows.getD p.numRows RowM.empty).lastItem
        = itemsBetween p.scratch p.currRow.firstItem p.currRow.lastItem) := by
  constructor
  · intro h0
    unfold scanSkipLexeme
    dsimp only
    rw [if_pos h0]
  · intro hne
    unfold scanSkipLexeme
    dsimp only
    rw [if_neg hne, pushRow_at_end]
    generalize hP1 : ({ p with scratch :=
      (p.scratch.ensureItems (p.currRow.lastItem +
        (p.currRow.lastItem - p.currRow.firstItem) + 100)).newRow p.currRow.lastItem } :
      ParserM) = P1
    have hP1scr : P1.scratch = (p.scratch.ensureItems (p.currRow.lastItem +
        (p.currRow.lastItem - p.currRow.firstItem) + 100)).newRow p.currRow.lastItem := by
      rw [← hP1]
    have hP1rows : P1.rows = p.rows := by rw [← hP1]
    have hP1stack : P1.lexerStack = p.lexerStack := by rw [← hP1]
    have hP1end : P1.scratch.rowEnd = p.currRow.lastItem := by
      simp [hP1scr, ScratchM.newRow]
    have hP1start : P1.scratch.rowStart = p.currRow.lastItem := by
      simp [hP1scr, ScratchM.newRow]
    have hP1items : ∀ j, P1.scratch.items.getD j Item.NULL =
        p.scratch.items.getD j Item.NULL := by
      intro j
      rw [hP1scr]
      show (p.scratch.ensureItems _).items.getD j Item.NULL = _
      exact ScratchM.ensureItems_getD _ _ _
    have hcf := copyFold_spec p.currRow.firstItem
      (p.currRow.lastItem - p.currRow.firstItem) P1 (by rw [hP1end]; omega)
    generalize hP2 : copyFold p.currRow.firstItem
      (p.currRow.lastItem - p.currRow.firstItem) P1 = P2
    rw [hP2] at hcf
    obtain ⟨hE2, hS2, hD2, hlow2, hcopy2⟩ := hcf
    have h1 : P2.scratch.rowEnd = p.currRow.lastItem +
        (p.currRow.lastItem - p.currRow.firstItem) := by rw [hE2, hP1end]
    have h2 : P2.scratch.rowStart = p.currRow.lastItem := by rw [hS2, hP1start]
    have hcopy3 : ∀ k, k < p.currRow.lastItem - p.currRow.firstItem →
        P2.scratch.items.getD (p.currRow.lastItem + k) Item.NULL =
          p.scratch.items.getD (p.currRow.firstItem + k) Item.NULL := by
      intro k hk
      have h := hcopy2 k hk
      rw [hP1end] at h
      rw [h, hP1items]
    have hnz : ¬ P2.scratch.rowLen = 0 := by
      unfold ScratchM.rowLen
      omega
    have hP2stack : P2.lexerStack = p.lexerStack := by
      rw [← hP2]
      exact (sideOf_lexerStack (copyFold_side ..)).trans hP1stack
    have hP2rows : P2.rows = p.rows := by
      rw [← hP2]
      exact (sideOf_rows (copyFold_side ..)).trans hP1rows
    have hP2num : P2.numRows = p.numRows := by
      unfold ParserM.numRows ParserM.lexerStateTop
      rw [hP2stack]
    generalize hF : (pushRowFinish g P2
      (LexSet.alloc g.lexerSpec.lexemes.length) []).1 = F
    have hFscr : F.scratch = P2.scratch := by
      rw [← hF]
      exact pushRowFinish_scratch ..
    have hFrows : F.rows =
        (if P2.rows.length = 0 ∨ P2.rows.length = P2.numRows then
          P2.rows ++ [P2.scratch.workRow
            ((LexSet.alloc g.lexerSpec.lexemes.length).setIdx SKIP true)]
        else P2.rows.set P2.numRows (P2.scratch.workRow
            ((LexSet.alloc g.lexerSpec.lexemes.length).setIdx SKIP true))) := by
      rw [← hF]
      exact pushRowFinish_rows_success _ _ _ _ hnz
    have hFstack : F.lexerStack = p.lexerStack := by
      rw [← hF]
      exact (side2Of_lexerStack (pushRowFinish_side2 ..)).trans hP2stack
    have hFnum : F.numRows = p.numRows := by
      unfold ParserM.numRows ParserM.lexerStateTop
      rw [hFstack]
    have hgetw : F.rows.getD p.numRows RowM.empty = P2.scratch.workRow
        ((LexSet.alloc g.lexerSpec.lexemes.length).setIdx SKIP true) := by
      rw [hFrows, hP2rows, hP2num]
      exact getD_materialize p.rows p.numRows _ hrows
    have hFlen : p.numRows < F.rows.length := by
      rw [hFrows, hP2rows, hP2num]
      split
      · rw [List.length_append]
        simp
        omega
      · rename_i hc
        push_neg at hc
        rw [List.length_set]
        omega
    have hfinal : (F.rows.set F.numRows
          { F.rows.getD F.numRows RowM.empty with
              allowedLexemes := p.currRow.allowedLexemes }).getD p.numRows RowM.empty =
        { P2.scratch.workRow ((LexSet.alloc g.lexerSpec.lexemes.length).setIdx SKIP true) with
            allowedLexemes := p.currRow.allowedLexemes } := by
      rw [hFnum, getD_set_self _ _ _ hFlen, hgetw]
    refine ⟨rfl, ?_, ?_, ?_⟩
    · split <;>
        (dsimp only; rw [hfinal];
         exact h2)
    · split <;>
        (dsimp only; rw [hfinal];
         exact h1)
    · split <;>
        (dsimp only
         rw [hfinal, hFscr]
         show itemsBetween P2.scratch P2.scratch.rowStart P2.scratch.rowEnd = _
         rw [h1, h2]
         unfold itemsBetween
         rw [Nat.add_sub_cancel_left]
         apply List.map_congr_left
         intro k hk
         exact hcopy3 k (List.mem_range.mp hk))


theorem scanSkipLexeme_spec_witness :
    ((mkInitial gMax lxTriv 50).currRow.lastItem
        - (mkInitial gMax lxTriv 50).currRow.firstItem = 0 →
      scanSkipLexeme gMax 50 (mkInitial gMax lxTriv 50) Lexeme.bogus
        = (mkInitial gMax lxTriv 50, false)) ∧
    ((mkInitial gMax lxTriv 50).currRow.lastItem
        - (mkInitial gMax lxTriv 50).currRow.firstItem ≠ 0 →
      (scanSkipLexeme gMax 50 (mkInitial gMax lxTriv 50) Lexeme.bogus).2 = true ∧
      ((scanSkipLexeme gMax 50 (mkInitial gMax lxTriv 50) Lexeme.bogus).1.rows.getD
          (mkInitial gMax lxTriv 50).numRows RowM.empty).firstItem
        = (mkInitial gMax lxTriv 50).currRow.lastItem ∧
      ((scanSkipLexeme gMax 50 (mkInitial gMax lxTriv 50) Lexeme.bogus).1.rows.getD
          (mkInitial gMax lxTriv 50).numRows RowM.empty).lastItem
        = (mkInitial gMax lxTriv 50).currRow.lastItem +
          ((mkInitial gMax lxTriv 50).currRow.lastItem
            - (mkInitial gMax lxTriv 50).currRow.firstItem) ∧
      itemsBetween (scanSkipLexeme gMax 50 (mkInitial gMax lxTriv 50) Lexeme.bogus).1.scratch
          ((scanSkipLexeme gMax 50 (mkInitial gMax lxTriv 50) Lexeme.bogus).1.rows.getD
            (mkInitial gMax lxTriv 50).numRows RowM.empty).firstItem
          ((scanSkipLexeme gMax 50 (mkInitial gMax lxTriv 50) Lexeme.bogus).1.rows.getD
            (mkInitial gMax lxTriv 50).numRows RowM.empty).lastItem
        = itemsBetween (mkInitial gMax lxTriv 50).scratch
            (mkInitial gMax lxTriv 50).currRow.firstItem
            (mkInitial gMax lxTriv 50).currRow.lastItem) :=
  scanSkipLexeme_spec gMax 50 (mkInitial gMax lxTriv 50) Lexeme.bogus (by decide)


/-! ### The row_infos length invariant -/

/-- The row_infos invariant for the result of a parser advance: when it
succeeds, row_infos has one entry per row. -/
def RIOk (r : ParserM × Bool) : Prop :=
  r.2 = true → r.1.rowInfos.length = r.1.numRows

theorem RIOk.ok (r : ParserM) (h : r.rowInfos.length = r.numRows) : RIOk (r, true) :=
  fun _ => h

/-- The typed results apply_tokens can return besides acceptance: the three
reject strings the model produces and the MAX_ROW hard error. -/
def RejectVariants : List (Except String String) :=
  [.ok "parse reject", .ok "static reject", .ok "parse reject on max_tokens",
   .error "row overflow: consider making your grammar left-recursive if it is right-recursive"]

theorem applyMaxTokensLimit_some (g : CGrammar) (lx : LexerM) (fuel vocabSize : Nat)
    (p : ParserM) (rowIdx : Nat) (p' : ParserM) (r : Except String String)
    (h : applyMaxTokensLimit g lx fuel vocabSize p rowIdx = (p', some r)) :
    r = .ok "parse reject on max_tokens" := by
  unfold applyMaxTokensLimit at h
  dsimp only at h
  split at h
  · split at h
    · split at h
      · simp at h
      · simp at h
        exact h.2.symm
    · simp at h
  · simp at h

theorem applyTokensByte_inr (g : CGrammar) (lx : LexerM) (fuel vocabSize : Nat)
    (indices grmBytes : List Nat) (tokLen tokIdx i b : Nat) (st : ApplyState)
    (p' : ParserM) (r : Except String String)
    (h : applyTokensByte g lx fuel vocabSize indices grmBytes tokLen tokIdx i b st =
      .inr (p', r)) :
    r ∈ RejectVariants := by
  unfold applyTokensByte at h
  dsimp only at h
  split at h
  · simp at h
  · split at h
    · split at h
      · simp at h
        rw [← h.2]
        simp [RejectVariants]
      · split at h
        · rename_i heq
          simp at h
          rw [← h.2]
          revert heq
          split
          · intro heq
            rw [applyMaxTokensLimit_some _ _ _ _ _ _ _ _ heq]
            simp [RejectVariants]
          · intro heq
            simp at heq
        · split at h
          · simp at h
            rw [← h.2]
            simp [RejectVariants]
          · simp at h
    · split at h
      · simp at h
        rw [← h.2]
        simp [RejectVariants]
      · simp at h

theorem applyTokensBytesLoop_inr (g : CGrammar) (lx : LexerM) (fuel vocabSize : Nat)
    (indices grmBytes : List Nat) (tokLen tokIdx : Nat) :
    ∀ (l : List (Nat × Nat)) (st : ApplyState) (p' : ParserM) (r : Except String String),
      applyTokensBytesLoop g lx fuel vocabSize indices grmBytes tokLen tokIdx l st =
        .inr (p', r) → r ∈ RejectVariants := by
  intro l
  induction l with
  | nil =>
    intro st p' r h
    simp [applyTokensBytesLoop] at h
  | cons hd rest ih =>
    intro st p' r h
    rw [applyTokensBytesLoop] at h
    split at h
    · exact ih _ _ _ h
    · rename_i r0 heq
      rw [h] at heq
      exact applyTokensByte_inr _ _ _ _ _ _ _ _ _ _ _ _ _ heq

theorem applyTokensLoop_inr (g : CGrammar) (lx : LexerM) (fuel vocabSize : Nat)
    (indices grmBytes : List Nat) :
    ∀ (l : List (Nat × List Nat)) (st : ApplyState) (p' : ParserM)
      (r : Except String String),
      applyTokensLoop g lx fuel vocabSize indices grmBytes l st = .inr (p', r) →
        r ∈ RejectVariants := by
  intro l
  induction l with
  | nil =>
    intro st p' r h
    simp [applyTokensLoop] at h
  | cons hd rest ih =>
    intro st p' r h
    rw [applyTokensLoop] at h
    split at h
    · exact ih _ _ _ h
    · rename_i r0 heq
      rw [h] at heq
      exact applyTokensBytesLoop_inr _ _ _ _ _ _ _ _ _ _ _ _ heq


/-- C4: apply_tokens rejects only through the typed string variants — the
model produces "parse reject", "static reject" and "parse reject on
max_tokens" — while a row exceeding MAX_ROW items is a hard error (Err),
not a reject variant; a byte differing from the grammar byte inside the
already-parsed prefix yields "static reject", and a definitively fed byte
that the lexer rejects yields "parse reject". -/
theorem applyTokens_spec (g : CGrammar) (lx : LexerM) (fuel vocabSize : Nat)
    (p : ParserM) (tokens : List (List Nat)) (numSkip : Nat) :
    ((applyTokens g lx fuel vocabSize p tokens numSkip).2 = .ok "" ∨
      (applyTokens g lx fuel vocabSize p tokens numSkip).2 ∈ RejectVariants) ∧
    (∀ (indices grmBytes : List Nat) (tokLen tokIdx i b : Nat) (st : ApplyState),
      st.numSkip = 0 → st.byteIdx < grmBytes.length →
      grmBytes.getD st.byteIdx 0 ≠ b →
      ∃ p2, applyTokensByte g lx fuel vocabSize indices grmBytes tokLen tokIdx i b st =
        .inr (p2, .ok "static reject")) ∧
    (∀ (indices grmBytes : List Nat) (tokLen tokIdx i b : Nat) (st : ApplyState)
      (p2 : ParserM),
      st.numSkip = 0 → grmBytes.length ≤ st.byteIdx →
      tryPushByteDefinitive g lx fuel ({ ({ st.p with tokenIdx := tokIdx, byteIdx := st.byteIdx } : ParserM) with rowInfos := ({ st.p with tokenIdx := tokIdx, byteIdx := st.byteIdx } : ParserM).rowInfos.set (({ st.p with tokenIdx := tokIdx, byteIdx := st.byteIdx } : ParserM).numRows - 1) ((({ st.p with tokenIdx := tokIdx, byteIdx := st.byteIdx } : ParserM).rowInfos.getD (({ st.p with tokenIdx := tokIdx, byteIdx := st.byteIdx } : ParserM).numRows - 1) RowInfoM.empty).applyTokenIdx tokIdx) } : ParserM) (some b) = (p2, false) →
      applyTokensByte g lx fuel vocabSize indices grmBytes tokLen tokIdx i b st =
        .inr (p2, .ok "parse reject")) ∧
    (∀ (indices grmBytes : List Nat) (tokLen tokIdx i b : Nat) (st : ApplyState)
      (p2 : ParserM) (e : String),
      applyTokensByte g lx fuel vocabSize indices grmBytes tokLen tokIdx i b st =
        .inr (p2, .error e) →
      e = "row overflow: consider making your grammar left-recursive if it is right-recursive") := by
  refine ⟨?_, ?_, ?_, ?_⟩
  · unfold applyTokens
    dsimp only
    split
    · rename_i r heq
      exact Or.inr (applyTokensLoop_inr _ _ _ _ _ _ _ _ r.1 r.2 heq)
    · rename_i st heq
      exact Or.inl rfl
  · intro indices grmBytes tokLen tokIdx i b st h0 hlt hne
    unfold applyTokensByte
    dsimp only
    rw [if_neg (by omega), if_neg (by omega), if_pos hne]
    exact ⟨_, rfl⟩
  · intro indices grmBytes tokLen tokIdx i b st p2 h0 hge hfail
    unfold applyTokensByte
    dsimp only
    rw [if_neg (by omega), if_pos (by omega : st.byteIdx ≥ grmBytes.length), hfail]
  · intro indices grmBytes tokLen tokIdx i b st p2 e h
    have hm := applyTokensByte_inr _ _ _ _ _ _ _ _ _ _ _ _ _ h
    simpa [RejectVariants] using hm


theorem applyTokens_spec_witness :
    ∃ p2, applyTokensByte gMax lxTriv 50 8 [] [5] 1 0 0 6
        ⟨mkInitial gMax lxTriv 50, 0, 0, 0⟩ = .inr (p2, .ok "static reject") :=
  (applyTokens_spec gMax lxTriv 50 8 (mkInitial gMax lxTriv 50) [] 0).2.1
    [] [5] 1 0 0 6 ⟨mkInitial gMax lxTriv 50, 0, 0, 0⟩ rfl (by decide) (by decide)


/-! ### Speculative mode never touches captures or row_infos -/

end Earley
